import Mathlib

/-!
# ddisasm instruction loader: operand interning, fact collection, region scans

A shallow embedding of `src/gtirb-decoder/core/InstructionLoader.h`
(`OperandFacts`, `InstructionFacts`, `BinaryFacts`, `InstructionLoader`,
`CodeBlockLoader`) and of `src/gtirb-decoder/format/RawLoader.cpp` (`RawEntryLoader`),
followed by theorems about them.

Conventions of the embedding:
* `uint64_t` values are natural numbers below `2 ^ 64`; every `++`, `+=` and
  `-=` on them is written with an explicit `% 2 ^ 64`.
* A `std::map<K, uint64_t>` is the list of its `(key, value)` entries in the
  order in which the map is iterated, that is in strictly ascending key order.
* `std::vector<T>` is `List T`, `push_back` appends at the end.
* The pure virtual `decode` is a parameter of the scans; the virtual `insert` and the
  sink `DatalogProgram`, both declared outside the shown sources, are parameters too.
* A failed `assert` ends a run (`Outcome.aborted`); the `while` loop runs on a step
  budget, and `Outcome.outOfFuel` says it was still running when the budget ended.
-/

namespace Ddisasm

/-- The number of values of a `uint64_t`. -/
def U64 : Nat := 2 ^ 64

/-! ## Types declared outside the shown sources -/

/-- Modelled from the spec: the operand value types `relations::ImmOp`, `RegOp`,
`FPImmOp`, `IndirectOp` and `SpecialOp` are declared in `Relations.h`, which is not
among the sources. Each is used as the key type of a `std::map`, so all that the
interner needs of it is the strict total order of its `operator<`; the types are
therefore taken as parameters carrying a linear order. -/
structure OperandTypes where
  ImmOp : Type
  RegOp : Type
  FPImmOp : Type
  IndirectOp : Type
  SpecialOp : Type
  immOrd : LinearOrder ImmOp
  regOrd : LinearOrder RegOp
  fpImmOrd : LinearOrder FPImmOp
  indirectOrd : LinearOrder IndirectOp
  specialOrd : LinearOrder SpecialOp

instance (O : OperandTypes) : LinearOrder O.ImmOp := O.immOrd
instance (O : OperandTypes) : LinearOrder O.RegOp := O.regOrd
instance (O : OperandTypes) : LinearOrder O.FPImmOp := O.fpImmOrd
instance (O : OperandTypes) : LinearOrder O.IndirectOp := O.indirectOrd
instance (O : OperandTypes) : LinearOrder O.SpecialOp := O.specialOrd

/-- The variant `relations::Operand` visited by `OperandFacts::add`: one alternative
per overload of `OperandFacts::operator()`. The register bit-field alternative is a
`std::vector<std::string>`. -/
inductive Operand (O : OperandTypes) where
  | imm (Op : O.ImmOp)
  | reg (Op : O.RegOp)
  | regBitFields (Op : List String)
  | fpImm (Op : O.FPImmOp)
  | indirect (Op : O.IndirectOp)
  | special (Op : O.SpecialOp)

instance (O : OperandTypes) : DecidableEq (Operand O) := fun a b => by
  cases a <;> cases b <;>
    first
    | exact isFalse (fun h => Operand.noConfusion h)
    | exact decidable_of_iff _ (by constructor <;> intro h; exact congrArg _ h; injection h)

/-! ## `std::map` -/

/-- A `std::map<K, uint64_t>`, given by its entries in iteration order. -/
abbrev StdMap (K : Type) := List (K × Nat)

/-- The result of `std::map::try_emplace`: the map afterwards, the mapped value the
returned iterator points at (`Iter->second`), and the `Inserted` flag. -/
structure Emplaced (K : Type) where
  table : StdMap K
  second : Nat
  inserted : Bool

/-- The call `OpTable.try_emplace(Op, Index)`: when an entry with an equivalent key
exists (neither key is less than the other) the map is unchanged and the iterator
points at that entry; otherwise `(Op, Index)` is inserted at its place in key order. -/
def try_emplace {K : Type} [LinearOrder K] : StdMap K → K → Nat → Emplaced K
  | [], k, v => ⟨[(k, v)], v, true⟩
  | (k', v') :: rest, k, v =>
    if k < k' then ⟨(k, v) :: (k', v') :: rest, v, true⟩
    else if k' < k then
      let r := try_emplace rest k v
      ⟨(k', v') :: r.table, r.second, r.inserted⟩
    else ⟨(k', v') :: rest, v', false⟩

/-- The lookup `std::map::find`, as the mapped value if the key is present. -/
def StdMap.find {K : Type} [LinearOrder K] : StdMap K → K → Option Nat
  | [], _ => none
  | (k', v') :: rest, k => if k = k' then some v' else StdMap.find rest k

/-! ## `OperandFacts` -/

/-- The data members of `class OperandFacts`. -/
structure OperandFacts (O : OperandTypes) where
  Index : Nat
  Imm : StdMap O.ImmOp
  Reg : StdMap O.RegOp
  RegBitFields : StdMap (List String)
  FPImm : StdMap O.FPImmOp
  Indirect : StdMap O.IndirectOp
  Special : StdMap O.SpecialOp

/-- A default-constructed `OperandFacts`: `Index = 1` (0 is reserved for empty
operators) and six empty tables. -/
def OperandFacts.fresh (O : OperandTypes) : OperandFacts O :=
  ⟨1, [], [], [], [], [], []⟩

/-- The template `OperandFacts::index(OpTable, Op)` on the two objects it touches,
the counter `Index` and the table: returns the counter and the table afterwards and
the returned ID `Iter->second`. -/
def OperandFacts.index {K : Type} [LinearOrder K] (Index : Nat) (OpTable : StdMap K) (Op : K) :
    Nat × StdMap K × Nat :=
  let r := try_emplace OpTable Op Index
  (if r.inserted then (Index + 1) % U64 else Index, r.table, r.second)

/-- The call `OperandFacts::add(Op)`: `std::visit` selects the `operator()` of the
alternative held, which calls `index` on that alternative's table. Returns the
interner afterwards and the ID. -/
def OperandFacts.add {O : OperandTypes} (s : OperandFacts O) : Operand O → OperandFacts O × Nat
  | .imm Op =>
    let r := OperandFacts.index s.Index s.Imm Op
    ({ s with Index := r.1, Imm := r.2.1 }, r.2.2)
  | .reg Op =>
    let r := OperandFacts.index s.Index s.Reg Op
    ({ s with Index := r.1, Reg := r.2.1 }, r.2.2)
  | .regBitFields Op =>
    let r := OperandFacts.index s.Index s.RegBitFields Op
    ({ s with Index := r.1, RegBitFields := r.2.1 }, r.2.2)
  | .fpImm Op =>
    let r := OperandFacts.index s.Index s.FPImm Op
    ({ s with Index := r.1, FPImm := r.2.1 }, r.2.2)
  | .indirect Op =>
    let r := OperandFacts.index s.Index s.Indirect Op
    ({ s with Index := r.1, Indirect := r.2.1 }, r.2.2)
  | .special Op =>
    let r := OperandFacts.index s.Index s.Special Op
    ({ s with Index := r.1, Special := r.2.1 }, r.2.2)

/-- A sequence of `add` calls, in order, on the interner `s`: the interner
afterwards and the IDs returned, one per call. -/
def OperandFacts.addAll {O : OperandTypes} : OperandFacts O → List (Operand O) →
    OperandFacts O × List Nat
  | s, [] => (s, [])
  | s, op :: ops =>
    let r := s.add op
    let rs := OperandFacts.addAll r.1 ops
    (rs.1, r.2 :: rs.2)

/-- The accessor `imm()`. -/
def OperandFacts.imm {O : OperandTypes} (s : OperandFacts O) : StdMap O.ImmOp := s.Imm
/-- The accessor `reg()`. -/
def OperandFacts.reg {O : OperandTypes} (s : OperandFacts O) : StdMap O.RegOp := s.Reg
/-- The accessor `fp_imm()`. -/
def OperandFacts.fp_imm {O : OperandTypes} (s : OperandFacts O) : StdMap O.FPImmOp := s.FPImm
/-- The accessor `indirect()`. -/
def OperandFacts.indirect {O : OperandTypes} (s : OperandFacts O) : StdMap O.IndirectOp :=
  s.Indirect
/-- The accessor `special()`. -/
def OperandFacts.special {O : OperandTypes} (s : OperandFacts O) : StdMap O.SpecialOp :=
  s.Special

/-- The IDs met while iterating a table. -/
def StdMap.ids {K : Type} (m : StdMap K) : List Nat := m.map Prod.snd

/-- The IDs held in the six tables together. -/
def OperandFacts.allIds {O : OperandTypes} (s : OperandFacts O) : List Nat :=
  StdMap.ids s.Imm ++ StdMap.ids s.Reg ++ StdMap.ids s.RegBitFields ++ StdMap.ids s.FPImm ++
    StdMap.ids s.Indirect ++ StdMap.ids s.Special

/-- The ID the interner holds for an operand, looked up in the table of the
operand's alternative. -/
def OperandFacts.lookup {O : OperandTypes} (s : OperandFacts O) : Operand O → Option Nat
  | .imm Op => StdMap.find s.Imm Op
  | .reg Op => StdMap.find s.Reg Op
  | .regBitFields Op => StdMap.find s.RegBitFields Op
  | .fpImm Op => StdMap.find s.FPImm Op
  | .indirect Op => StdMap.find s.Indirect Op
  | .special Op => StdMap.find s.Special Op

/-- Record one more operand in a first-seen list: appended unless already there. -/
def seeOp {α : Type} [DecidableEq α] (seen : List α) (op : α) : List α :=
  if op ∈ seen then seen else seen ++ [op]

/-- The first-seen list after a call sequence, starting from the list `seen`. -/
def firstSeenFrom {α : Type} [DecidableEq α] (seen : List α) (ops : List α) : List α :=
  ops.foldl seeOp seen

/-- The distinct operands of a call sequence in the order in which they are first seen. -/
def firstSeen {α : Type} [DecidableEq α] (ops : List α) : List α :=
  firstSeenFrom [] ops

/-- Modelled from the spec: a concrete choice of the operand value types, after the
data model of the spec: an immediate is a signed integer, a register is its canonical id; the
floating immediate is an integer bit pattern, the indirect operand the tuple
(base, index, scale, displacement) and the special operand its payload string. -/
@[reducible] def sampleOperandTypes : OperandTypes where
  ImmOp := Int
  RegOp := Nat
  FPImmOp := Int
  IndirectOp := Nat
  SpecialOp := Nat
  immOrd := inferInstance
  regOrd := inferInstance
  fpImmOrd := inferInstance
  indirectOrd := inferInstance
  specialOrd := inferInstance

/-! ## `InstructionFacts` and `BinaryFacts` -/

/-- Modelled from the spec: the tuple types `relations::Instruction`, `ShiftedOp`,
`ShiftedWithRegOp`, `InstructionWriteback`, `InstructionCondCode`, `InstructionOpAccess`
and `RegisterAccess` are declared in `Relations.h`, which is not among the sources; they
are taken as parameters. Of an instruction record only its address field is used
(spec, data model: an Instruction Record holds its address, mnemonic, operand references
and size). -/
structure FactTypes where
  Instruction : Type
  ShiftedOp : Type
  ShiftedWithRegOp : Type
  InstructionWriteback : Type
  InstructionCondCode : Type
  InstructionOpAccess : Type
  RegisterAccess : Type
  address : Instruction → Nat

/-- The data members of `class InstructionFacts`, eight `std::vector`s. The read-only
accessors `instructions()`, `invalid()`, `shiftedOps()`, `shiftedWithRegOps()`,
`writeback()`, `conditionCode()`, `opAccess()` and `registerAccesses()` return these
members, in this order. -/
structure InstructionFacts (T : FactTypes) where
  Instructions : List T.Instruction
  InvalidInstructions : List Nat
  ShiftedOps : List T.ShiftedOp
  ShiftedWithRegOps : List T.ShiftedWithRegOp
  InstructionWritebackList : List T.InstructionWriteback
  InstructionCondCodeList : List T.InstructionCondCode
  InstructionOpAccessList : List T.InstructionOpAccess
  RegisterAccesses : List T.RegisterAccess

/-- A default-constructed `InstructionFacts`: eight empty vectors. -/
def InstructionFacts.fresh (T : FactTypes) : InstructionFacts T :=
  ⟨[], [], [], [], [], [], [], []⟩

/-- The method `InstructionFacts::add(I)`. -/
def InstructionFacts.add {T : FactTypes} (F : InstructionFacts T) (I : T.Instruction) :
    InstructionFacts T :=
  { F with Instructions := F.Instructions ++ [I] }

/-- The method `InstructionFacts::invalid(A)`. -/
def InstructionFacts.invalid {T : FactTypes} (F : InstructionFacts T) (A : Nat) :
    InstructionFacts T :=
  { F with InvalidInstructions := F.InvalidInstructions ++ [A] }

/-- The method `InstructionFacts::shiftedOp(Op)`. -/
def InstructionFacts.shiftedOp {T : FactTypes} (F : InstructionFacts T) (Op : T.ShiftedOp) :
    InstructionFacts T :=
  { F with ShiftedOps := F.ShiftedOps ++ [Op] }

/-- The method `InstructionFacts::shiftedWithRegOp(Op)`. -/
def InstructionFacts.shiftedWithRegOp {T : FactTypes} (F : InstructionFacts T)
    (Op : T.ShiftedWithRegOp) : InstructionFacts T :=
  { F with ShiftedWithRegOps := F.ShiftedWithRegOps ++ [Op] }

/-- The method `InstructionFacts::writeback(writeback)`. -/
def InstructionFacts.writeback {T : FactTypes} (F : InstructionFacts T)
    (writeback : T.InstructionWriteback) : InstructionFacts T :=
  { F with InstructionWritebackList := F.InstructionWritebackList ++ [writeback] }

/-- The method `InstructionFacts::conditionCode(CondCode)`. -/
def InstructionFacts.conditionCode {T : FactTypes} (F : InstructionFacts T)
    (CondCode : T.InstructionCondCode) : InstructionFacts T :=
  { F with InstructionCondCodeList := F.InstructionCondCodeList ++ [CondCode] }

/-- The method `InstructionFacts::opAccess(Access)`. -/
def InstructionFacts.opAccess {T : FactTypes} (F : InstructionFacts T)
    (Access : T.InstructionOpAccess) : InstructionFacts T :=
  { F with InstructionOpAccessList := F.InstructionOpAccessList ++ [Access] }

/-- The method `InstructionFacts::registerAccess(access)`. -/
def InstructionFacts.registerAccess {T : FactTypes} (F : InstructionFacts T)
    (access : T.RegisterAccess) : InstructionFacts T :=
  { F with RegisterAccesses := F.RegisterAccesses ++ [access] }

/-- One call of an `add`-style method of `InstructionFacts`, with its argument. -/
inductive FactCall (T : FactTypes) where
  | add (I : T.Instruction)
  | invalid (A : Nat)
  | shiftedOp (Op : T.ShiftedOp)
  | shiftedWithRegOp (Op : T.ShiftedWithRegOp)
  | writeback (writeback : T.InstructionWriteback)
  | conditionCode (CondCode : T.InstructionCondCode)
  | opAccess (Access : T.InstructionOpAccess)
  | registerAccess (access : T.RegisterAccess)

/-- Perform one method call on a collector. -/
def InstructionFacts.call {T : FactTypes} (F : InstructionFacts T) : FactCall T →
    InstructionFacts T
  | .add I => F.add I
  | .invalid A => F.invalid A
  | .shiftedOp Op => F.shiftedOp Op
  | .shiftedWithRegOp Op => F.shiftedWithRegOp Op
  | .writeback w => F.writeback w
  | .conditionCode c => F.conditionCode c
  | .opAccess a => F.opAccess a
  | .registerAccess a => F.registerAccess a

/-- Perform a sequence of method calls, in order. -/
def InstructionFacts.calls {T : FactTypes} (F : InstructionFacts T) (cs : List (FactCall T)) :
    InstructionFacts T :=
  cs.foldl InstructionFacts.call F

/-- The argument of a call if it is a call of `add`. -/
def FactCall.addArg {T : FactTypes} : FactCall T → Option T.Instruction
  | .add I => some I
  | _ => none

/-- The argument of a call if it is a call of `invalid`. -/
def FactCall.invalidArg {T : FactTypes} : FactCall T → Option Nat
  | .invalid A => some A
  | _ => none

/-- The argument of a call if it is a call of `shiftedOp`. -/
def FactCall.shiftedOpArg {T : FactTypes} : FactCall T → Option T.ShiftedOp
  | .shiftedOp Op => some Op
  | _ => none

/-- The argument of a call if it is a call of `shiftedWithRegOp`. -/
def FactCall.shiftedWithRegOpArg {T : FactTypes} : FactCall T → Option T.ShiftedWithRegOp
  | .shiftedWithRegOp Op => some Op
  | _ => none

/-- The argument of a call if it is a call of `writeback`. -/
def FactCall.writebackArg {T : FactTypes} : FactCall T → Option T.InstructionWriteback
  | .writeback w => some w
  | _ => none

/-- The argument of a call if it is a call of `conditionCode`. -/
def FactCall.conditionCodeArg {T : FactTypes} : FactCall T → Option T.InstructionCondCode
  | .conditionCode c => some c
  | _ => none

/-- The argument of a call if it is a call of `opAccess`. -/
def FactCall.opAccessArg {T : FactTypes} : FactCall T → Option T.InstructionOpAccess
  | .opAccess a => some a
  | _ => none

/-- The argument of a call if it is a call of `registerAccess`. -/
def FactCall.registerAccessArg {T : FactTypes} : FactCall T → Option T.RegisterAccess
  | .registerAccess a => some a
  | _ => none

/-- The aggregate `struct BinaryFacts`. -/
structure BinaryFacts (O : OperandTypes) (T : FactTypes) where
  Instructions : InstructionFacts T
  Operands : OperandFacts O

/-- A default-constructed `BinaryFacts`, as made by `InstructionLoader::operator()`. -/
def BinaryFacts.fresh (O : OperandTypes) (T : FactTypes) : BinaryFacts O T :=
  ⟨InstructionFacts.fresh T, OperandFacts.fresh O⟩

/-! ## The binary container, as far as the loaders read it -/

/-- A `gtirb::ByteInterval`, by the results of the accessors the loaders call:
`getAddress()` (an optional address), `getInitializedSize()` and the bytes that
`rawBytes<const uint8_t>()` points at. -/
structure ByteInterval where
  getAddress : Option Nat
  getInitializedSize : Nat
  rawBytes : List Nat

/-- A `const uint8_t*` into the bytes of an interval: the buffer and the offset of the
pointer from its start. -/
structure BytePtr where
  buffer : List Nat
  offset : Nat
deriving DecidableEq

/-- A `gtirb::CodeBlock`, by the results of the accessors `CodeBlockLoader` calls:
`getAddress()`, `getByteInterval()` (every block that `Module::code_blocks()` yields
is reached through its interval) and `getOffset()`. -/
structure CodeBlock where
  getAddress : Option Nat
  getByteInterval : ByteInterval
  getOffset : Nat

/-- A `gtirb::Section`, by what the loader reads of it: whether
`isFlagSet(gtirb::SectionFlag::Executable)` holds, and its `byte_intervals()`. -/
structure Section where
  Executable : Bool
  byte_intervals : List ByteInterval

/-- A `gtirb::Module`, by what the loaders read of it: its `sections()` and its
`code_blocks()`, each in iteration order, and the result of
`getAuxData<gtirb::schema::RawEntries>()`: absent, or the raw entry addresses in the
order in which the table is iterated. -/
structure Module where
  sections : List Section
  code_blocks : List CodeBlock
  RawEntries : Option (List Nat)

/-! ## `InstructionLoader` -/

/-- The arguments of one call `decode(Facts, Bytes, Size, Addr)`; `Facts` is the
referenced fact set as it is when the call is made. -/
structure DecodeCall (O : OperandTypes) (T : FactTypes) where
  Facts : BinaryFacts O T
  Bytes : BytePtr
  Size : Nat
  Addr : Nat

/-- How a `load` ended: it returned, leaving the fact set `Facts`; or an `assert`
failed; or, for the model of the `while` loop, the loop was still running when the
step budget ended. -/
inductive Outcome (O : OperandTypes) (T : FactTypes) where
  | done (Facts : BinaryFacts O T)
  | aborted
  | outOfFuel

/-- A run of a `load`: the `decode` calls it made, in order, and how it ended. -/
structure Scan (O : OperandTypes) (T : FactTypes) where
  calls : List (DecodeCall O T)
  outcome : Outcome O T

/-- The parts of an `InstructionLoader` object the loads use: the member
`InstructionSize` (a `uint8_t`, set by the constructor `InstructionLoader(uint8_t N)`)
and the pure virtual `decode`, which receives the fact set by reference and leaves it
changed. -/
structure InstructionLoader (O : OperandTypes) (T : FactTypes) where
  InstructionSize : Nat
  decode : BinaryFacts O T → BytePtr → Nat → Nat → BinaryFacts O T

/-- The `while(Size > 0)` loop of `InstructionLoader::load(Module, ByteInterval, Facts)`,
run for at most `fuel` iterations. Each iteration calls `decode(Facts, Data, Size, Addr)`
and then performs `Addr += InstructionSize`, `Data += InstructionSize` and
`Size -= InstructionSize`, the first and the last on `uint64_t`. -/
def InstructionLoader.loadLoop {O : OperandTypes} {T : FactTypes} (L : InstructionLoader O T) :
    Nat → BinaryFacts O T → BytePtr → Nat → Nat → Scan O T
  | 0, Facts, _, Size, _ => if Size > 0 then ⟨[], .outOfFuel⟩ else ⟨[], .done Facts⟩
  | fuel + 1, Facts, Data, Size, Addr =>
    if Size > 0 then
      let r := InstructionLoader.loadLoop L fuel (L.decode Facts Data Size Addr)
        ⟨Data.buffer, Data.offset + L.InstructionSize⟩
        ((Size + U64 - L.InstructionSize) % U64) ((Addr + L.InstructionSize) % U64)
      ⟨⟨Facts, Data, Size, Addr⟩ :: r.calls, r.outcome⟩
    else ⟨[], .done Facts⟩

/-- The blind scan `InstructionLoader::load(Module, ByteInterval, Facts)`: the `assert`
that the interval has an address, then the loop from the interval's address, its
initialized size and the start of its bytes. The module argument is unused. -/
def InstructionLoader.load {O : OperandTypes} {T : FactTypes} (L : InstructionLoader O T)
    (fuel : Nat) (ByteInterval : ByteInterval) (Facts : BinaryFacts O T) : Scan O T :=
  match ByteInterval.getAddress with
  | none => ⟨[], .aborted⟩
  | some Addr =>
    L.loadLoop fuel Facts ⟨ByteInterval.rawBytes, 0⟩ ByteInterval.getInitializedSize Addr

/-! ## `CodeBlockLoader` -/

/-- The method `CodeBlockLoader::load(Block, Facts)`: three `assert`s, then one call of
`decode` at the block's address on the interval's bytes from the block's offset, with
`Size = getInitializedSize() - getOffset()` computed on `uint64_t`. The sum in the third
`assert` is a `gtirb::Addr`, a 64-bit address. -/
def CodeBlockLoader.loadBlock {O : OperandTypes} {T : FactTypes} (L : InstructionLoader O T)
    (Block : CodeBlock) (Facts : BinaryFacts O T) : Scan O T :=
  match Block.getAddress with
  | none => ⟨[], .aborted⟩
  | some Addr =>
    let ByteInterval := Block.getByteInterval
    match ByteInterval.getAddress with
    | none => ⟨[], .aborted⟩
    | some BaseAddr =>
      if Addr < (BaseAddr + ByteInterval.getInitializedSize) % U64 then
        let Data : BytePtr := ⟨ByteInterval.rawBytes, Block.getOffset⟩
        let Size := (ByteInterval.getInitializedSize + U64 - Block.getOffset) % U64
        ⟨[⟨Facts, Data, Size, Addr⟩], .done (L.decode Facts Data Size Addr)⟩
      else ⟨[], .aborted⟩

/-- The loop `for(auto& Block : Module.code_blocks()) load(Block, Facts);` over the
blocks still to visit. A failed `assert` ends the run. -/
def CodeBlockLoader.loadBlocks {O : OperandTypes} {T : FactTypes} (L : InstructionLoader O T) :
    List CodeBlock → BinaryFacts O T → Scan O T
  | [], Facts => ⟨[], .done Facts⟩
  | Block :: Blocks, Facts =>
    let r := CodeBlockLoader.loadBlock L Block Facts
    match r.outcome with
    | .done Facts1 =>
      let rs := CodeBlockLoader.loadBlocks L Blocks Facts1
      ⟨r.calls ++ rs.calls, rs.outcome⟩
    | .aborted => ⟨r.calls, .aborted⟩
    | .outOfFuel => ⟨r.calls, .outOfFuel⟩

/-- The override `CodeBlockLoader::load(Module, Facts)`. -/
def CodeBlockLoader.load {O : OperandTypes} {T : FactTypes} (L : InstructionLoader O T)
    (Module : Module) (Facts : BinaryFacts O T) : Scan O T :=
  CodeBlockLoader.loadBlocks L Module.code_blocks Facts

/-- The three `assert`s of `CodeBlockLoader::load(Block, Facts)` hold for a block. -/
def CodeBlock.Asserted (Block : CodeBlock) : Prop :=
  ∃ Addr BaseAddr, Block.getAddress = some Addr ∧
    Block.getByteInterval.getAddress = some BaseAddr ∧
    Addr < (BaseAddr + Block.getByteInterval.getInitializedSize) % U64

/-! ## The decode hook contract -/

/-- A decode attempt at address `A` that took the fact set from `F` to `F1` failed in the
way the hook contract prescribes: it appended exactly `invalid(A)` and no instruction
record. -/
def FailedAt {O : OperandTypes} {T : FactTypes} (F F1 : BinaryFacts O T) (A : Nat) : Prop :=
  F1.Instructions.InvalidInstructions = F.Instructions.InvalidInstructions ++ [A] ∧
    F1.Instructions.Instructions = F.Instructions.Instructions

/-- A decode attempt at address `A` that took the fact set from `F` to `F1` succeeded in
the way the hook contract prescribes: it appended exactly one instruction record, whose
address is `A`, and no invalid address. -/
def SucceededAt {O : OperandTypes} {T : FactTypes} (F F1 : BinaryFacts O T) (A : Nat) : Prop :=
  ∃ I : T.Instruction, T.address I = A ∧
    F1.Instructions.Instructions = F.Instructions.Instructions ++ [I] ∧
    F1.Instructions.InvalidInstructions = F.Instructions.InvalidInstructions

/-- The decode hook follows the hook contract: every attempt either fails or succeeds in
the prescribed way. -/
def FollowsContract {O : OperandTypes} {T : FactTypes}
    (decode : BinaryFacts O T → BytePtr → Nat → Nat → BinaryFacts O T) : Prop :=
  ∀ F Bytes Size Addr,
    FailedAt F (decode F Bytes Size Addr) Addr ∨ SucceededAt F (decode F Bytes Size Addr) Addr

/-- The decode attempt of a recorded call failed. -/
def DecodeCall.Failed {O : OperandTypes} {T : FactTypes} (L : InstructionLoader O T)
    (c : DecodeCall O T) : Prop :=
  FailedAt c.Facts (L.decode c.Facts c.Bytes c.Size c.Addr) c.Addr

/-- The `uint64_t` `Size` after `k` iterations of the loop from `Size0`: `k` times
`Size -= S`, modulo `2 ^ 64`. -/
def sizeAfter (S Size0 k : Nat) : Nat := (Size0 + k * (U64 - S)) % U64

/-- The `uint64_t` `Addr` after `k` iterations of the loop from `Addr0`: `k` times
`Addr += S`, modulo `2 ^ 64`. -/
def addrAfter (S Addr0 k : Nat) : Nat := (Addr0 + k * S) % U64

/-- The fact set a run returned, if it returned. -/
def Outcome.facts {O : OperandTypes} {T : FactTypes} : Outcome O T → Option (BinaryFacts O T)
  | .done Facts => some Facts
  | .aborted => none
  | .outOfFuel => none

/-! ## A sample instantiation, used to evaluate the definitions -/

/-- Modelled from the spec: an Instruction Record (spec, data model): address,
mnemonic, the interned IDs of its operands in order, and size in bytes. The struct
`relations::Instruction` itself is declared in `Relations.h`, not among the sources. -/
structure InstructionRecord where
  address : Nat
  mnemonic : String
  operands : List Nat
  size : Nat
deriving DecidableEq

/-- Modelled from the spec: a concrete choice of the fact tuple types, with the
instruction record of the spec; the auxiliary streams, which no sample uses, hold
numbers. -/
@[reducible] def sampleFactTypes : FactTypes where
  Instruction := InstructionRecord
  ShiftedOp := Nat
  ShiftedWithRegOp := Nat
  InstructionWriteback := Nat
  InstructionCondCode := Nat
  InstructionOpAccess := Nat
  RegisterAccess := Nat
  address := InstructionRecord.address

/-- A sample decode hook that follows the hook contract. Where the first byte at the
data pointer is `0x01` and at least two bytes are available it decodes the two-byte,
two-operand instruction `I1`: it interns the operands (register 1, immediate 5) and
appends the record; everywhere else it fails and records the address as invalid. -/
def sampleDecode (Facts : BinaryFacts sampleOperandTypes sampleFactTypes) (Bytes : BytePtr)
    (Size Addr : Nat) : BinaryFacts sampleOperandTypes sampleFactTypes :=
  if Bytes.buffer[Bytes.offset]? = some 1 ∧ 2 ≤ Size then
    let r1 := Facts.Operands.add (.reg (1 : Nat))
    let r2 := r1.1.add (.imm (5 : Int))
    ⟨Facts.Instructions.add (⟨Addr, "I1", [r1.2, r2.2], 2⟩ : InstructionRecord), r2.1⟩
  else ⟨Facts.Instructions.invalid Addr, Facts.Operands⟩

/-- A sample loader with stride 1, the default `InstructionSize`. -/
def sampleLoader : InstructionLoader sampleOperandTypes sampleFactTypes :=
  ⟨1, sampleDecode⟩

/-- A sample region: four bytes at address `0x1000`; the bytes at offsets 0 and 1 encode
`I1`, the bytes at offsets 2 and 3 encode nothing. -/
def sampleInterval : ByteInterval :=
  ⟨some 0x1000, 4, [0x01, 0x02, 0xFF, 0xFF]⟩

/-- A sample module: one executable section holding the sample region, with two code
blocks in it, at offsets 0 and 2, and the raw entries `0x2000` and `0x2010`. -/
def sampleModule : Module :=
  ⟨[⟨true, [sampleInterval]⟩],
    [⟨some 0x1000, sampleInterval, 0⟩, ⟨some 0x1002, sampleInterval, 2⟩],
    some [0x2000, 0x2010]⟩

/-- The instruction and invalid-address streams of the fact set a run returned. -/
def Scan.streams {O : OperandTypes} {T : FactTypes} (r : Scan O T) :
    Option (List T.Instruction × List Nat) :=
  r.outcome.facts.map (fun F => (F.Instructions.Instructions, F.Instructions.InvalidInstructions))

/-! ## The loads over a module, `operator()` and `RawEntryLoader` -/

/-- The loop `for(const auto& ByteInterval : Section.byte_intervals())
load(Module, ByteInterval, Facts);` over the intervals still to visit; every `while` loop
gets the step budget `fuel`. A failed `assert`, or a loop that is still running when its
budget ends, ends the run. -/
def InstructionLoader.loadIntervals {O : OperandTypes} {T : FactTypes}
    (L : InstructionLoader O T) (fuel : Nat) : List ByteInterval → BinaryFacts O T → Scan O T
  | [], Facts => ⟨[], .done Facts⟩
  | ByteInterval :: Rest, Facts =>
    let r := L.load fuel ByteInterval Facts
    match r.outcome with
    | .done Facts1 =>
      let rs := InstructionLoader.loadIntervals L fuel Rest Facts1
      ⟨r.calls ++ rs.calls, rs.outcome⟩
    | .aborted => ⟨r.calls, .aborted⟩
    | .outOfFuel => ⟨r.calls, .outOfFuel⟩

/-- The loop `for(const auto& Section : Module.sections())` of the default
`InstructionLoader::load(Module, Facts)` over the sections still to visit: the byte
intervals of a section are scanned if `isFlagSet(SectionFlag::Executable)` holds. -/
def InstructionLoader.loadSections {O : OperandTypes} {T : FactTypes}
    (L : InstructionLoader O T) (fuel : Nat) : List Section → BinaryFacts O T → Scan O T
  | [], Facts => ⟨[], .done Facts⟩
  | Section :: Rest, Facts =>
    if Section.Executable then
      let r := L.loadIntervals fuel Section.byte_intervals Facts
      match r.outcome with
      | .done Facts1 =>
        let rs := InstructionLoader.loadSections L fuel Rest Facts1
        ⟨r.calls ++ rs.calls, rs.outcome⟩
      | .aborted => ⟨r.calls, .aborted⟩
      | .outOfFuel => ⟨r.calls, .outOfFuel⟩
    else InstructionLoader.loadSections L fuel Rest Facts

/-- The default `InstructionLoader::load(Module, Facts)`. -/
def InstructionLoader.loadModule {O : OperandTypes} {T : FactTypes}
    (L : InstructionLoader O T) (fuel : Nat) (Module : Module) (Facts : BinaryFacts O T) :
    Scan O T :=
  L.loadSections fuel Module.sections Facts

/-- The byte intervals of the sections flagged executable, in section order and then
byte-interval order. -/
def executableIntervals : List Section → List ByteInterval
  | [] => []
  | Section :: Rest =>
    if Section.Executable then Section.byte_intervals ++ executableIntervals Rest
    else executableIntervals Rest

/-- How a run ended, without the fact set. -/
inductive Ended where
  | returned
  | aborted
  | outOfFuel
deriving DecidableEq

/-- How a run ended. -/
def Outcome.ended {O : OperandTypes} {T : FactTypes} : Outcome O T → Ended
  | .done _ => .returned
  | .aborted => .aborted
  | .outOfFuel => .outOfFuel

/-- Where the scan stands at a `decode` call: the address, the data pointer and the
remaining length passed. -/
def DecodeCall.cursor {O : OperandTypes} {T : FactTypes} (c : DecodeCall O T) :
    Nat × BytePtr × Nat :=
  (c.Addr, c.Bytes, c.Size)

/-- What one call of `InstructionLoader::operator()` did: how it ended, the fact sets
passed to `insert` (one per call of `insert`), and the sink afterwards. -/
structure Invocation (O : OperandTypes) (T : FactTypes) (P : Type) where
  ended : Ended
  inserts : List (BinaryFacts O T)
  Program : P

/-- The top-level `InstructionLoader::operator()(Module, Program)`:
`BinaryFacts Facts; load(Module, Facts); insert(Facts, Program);`. The virtual `load`
(with the module already supplied) and the virtual `insert`, which is defined outside the
shown sources, are parameters; `P` is the type of the sink `DatalogProgram`. When `load`
does not return, `insert` is not reached. -/
def InstructionLoader.invoke {O : OperandTypes} {T : FactTypes} {P : Type}
    (load : BinaryFacts O T → Scan O T) (insert : BinaryFacts O T → P → P) (Program : P) :
    Invocation O T P :=
  match (load (BinaryFacts.fresh O T)).outcome with
  | .done Facts => ⟨.returned, [Facts], insert Facts Program⟩
  | .aborted => ⟨.aborted, [], Program⟩
  | .outOfFuel => ⟨.outOfFuel, [], Program⟩

/-- The function `RawEntryLoader(Module, Program)` of `RawLoader.cpp`: collect the raw
entries, if the table is there, by `push_back` in iteration order, then call
`Program.insert("entry_point", Entries)`. The method `DatalogProgram::insert` is declared
outside the shown sources and is a parameter; `P` is the type of the sink. -/
def RawEntryLoader {P : Type} (insert : String → List Nat → P → P) (Module : Module)
    (Program : P) : P :=
  let Entries : List Nat :=
    match Module.RawEntries with
    | some RawEntries => RawEntries.foldl (fun Entries EA => Entries ++ [EA]) []
    | none => []
  insert "entry_point" Entries Program

/-- Modelled from the spec: the fact sink as the named relations handed to it, each a
sequence of tuples (spec, external interfaces); here the one-column relations of
addresses. The class `DatalogProgram` is declared outside the shown sources. -/
abbrev RelationLog := List (String × List Nat)

/-- Modelled from the spec: inserting a named relation into the sample sink records it
after the relations inserted before. -/
def RelationLog.insert (name : String) (tuples : List Nat) (Program : RelationLog) :
    RelationLog :=
  Program ++ [(name, tuples)]

/-- The powers of two that fit a `uint8_t`, and 0: the strides considered for the
termination of the blind scan. -/
def strides : List Nat := [0, 1, 2, 4, 8, 16, 32, 64, 128]

/-- The region of a byte interval can be scanned with stride `S` without leaving it: it
has an address, it ends inside the 64-bit address space, and the stride divides its
initialized length. -/
def ByteInterval.Scannable (S : Nat) (BI : ByteInterval) : Prop :=
  ∃ a, BI.getAddress = some a ∧ a + BI.getInitializedSize ≤ U64 ∧
    BI.getInitializedSize < U64 ∧ S ∣ BI.getInitializedSize

/-- Two byte intervals occupy address ranges that do not overlap. -/
def ByteInterval.Apart (I J : ByteInterval) : Prop :=
  ∀ a b, I.getAddress = some a → J.getAddress = some b →
    a + I.getInitializedSize ≤ b ∨ b + J.getInitializedSize ≤ a

/-- Modelled from the spec: a sample `insert(Facts, Program)`, which hands the
relation `invalid_instruction(addr)` of the spec's external interface to the sample sink.
The method `InstructionLoader::insert` is defined outside the shown sources. -/
def sampleInsert (Facts : BinaryFacts sampleOperandTypes sampleFactTypes)
    (Program : RelationLog) : RelationLog :=
  RelationLog.insert "invalid_instruction" Facts.Instructions.InvalidInstructions Program

/-- Strictly ascending key order, the iteration order of a `std::map`. -/
def StdMap.KeySorted {K : Type} [LinearOrder K] (m : StdMap K) : Prop :=
  m.Pairwise (fun a b => a.1 < b.1)

/-- A list of IDs is a contiguous range: it has no gap between two of its members. -/
def Contiguous (ids : List Nat) : Prop :=
  ∀ a ∈ ids, ∀ b ∈ ids, ∀ c, a < c → c < b → c ∈ ids

/-- All six tables are in strictly ascending key order. -/
def OperandFacts.TablesSorted {O : OperandTypes} (s : OperandFacts O) : Prop :=
  StdMap.KeySorted s.Imm ∧ StdMap.KeySorted s.Reg ∧ StdMap.KeySorted s.RegBitFields ∧
    StdMap.KeySorted s.FPImm ∧ StdMap.KeySorted s.Indirect ∧ StdMap.KeySorted s.Special

/-- The interner invariant, relative to the list `seen` of the distinct operands added
so far in first-seen order: the counter is one past their number, the operand at
position `k` (counting from 0) holds ID `k + 1` in the table of its alternative and no
other operand holds an ID, the tables are in key order, and the IDs held are exactly
`1, ..., seen.length`, each once. -/
def OperandFacts.Inv {O : OperandTypes} (s : OperandFacts O) (seen : List (Operand O)) : Prop :=
  s.Index = seen.length + 1 ∧ seen.Nodup ∧ s.TablesSorted ∧
    (∀ op, s.lookup op = if op ∈ seen then some (seen.indexOf op + 1) else none) ∧
    List.Perm s.allIds (List.range' 1 seen.length)

/-- A table maps operand values to IDs one-to-one: no key occurs twice and no ID occurs
twice. -/
def StdMap.OneToOne {K : Type} (m : StdMap K) : Prop :=
  (m.map Prod.fst).Nodup ∧ (m.map Prod.snd).Nodup

/-! ## Lemmas on `try_emplace` -/

section TableLemmas

variable {K : Type} [LinearOrder K]

theorem find_eq_none_of_lt (t : StdMap K) (k : K) (h : ∀ e ∈ t, k < e.1) :
    StdMap.find t k = none := by
  induction t with
  | nil => rfl
  | cons e rest ih =>
    obtain ⟨k', v'⟩ := e
    have h1 : k < k' := h (k', v') (List.mem_cons_self _ _)
    simp only [StdMap.find, if_neg (ne_of_lt h1)]
    exact ih (fun e he => h e (List.mem_cons_of_mem _ he))

theorem try_emplace_of_find_some (t : StdMap K) (hs : StdMap.KeySorted t) (k : K) (v v' : Nat)
    (h : StdMap.find t k = some v') : try_emplace t k v = ⟨t, v', false⟩ := by
  induction t with
  | nil => simp [StdMap.find] at h
  | cons e rest ih =>
    obtain ⟨k1, v1⟩ := e
    have hs' := List.pairwise_cons.1 hs
    by_cases hk : k = k1
    · subst hk
      simp only [StdMap.find, if_true] at h
      simp only [try_emplace, lt_irrefl, if_false]
      rw [Option.some.inj h]
    · simp only [StdMap.find, if_neg hk] at h
      have hlt : ¬ k < k1 := by
        intro hlt
        have : StdMap.find rest k = none :=
          find_eq_none_of_lt rest k (fun e he => lt_trans hlt (hs'.1 e he))
        rw [this] at h
        exact Option.noConfusion h
      have hgt : k1 < k := lt_of_le_of_ne (not_lt.1 hlt) (Ne.symm hk)
      simp only [try_emplace, if_neg hlt, if_pos hgt, ih hs'.2 h]

theorem try_emplace_of_find_none (t : StdMap K) (hs : StdMap.KeySorted t) (k : K) (v : Nat)
    (h : StdMap.find t k = none) :
    (try_emplace t k v).inserted = true ∧ (try_emplace t k v).second = v ∧
      StdMap.KeySorted (try_emplace t k v).table ∧
      (∀ k', StdMap.find (try_emplace t k v).table k' =
        if k' = k then some v else StdMap.find t k') ∧
      List.Perm (StdMap.ids (try_emplace t k v).table) (v :: StdMap.ids t) ∧
      (∀ e ∈ (try_emplace t k v).table, e = (k, v) ∨ e ∈ t) := by
  induction t with
  | nil =>
    refine ⟨rfl, rfl, ?_, ?_, ?_, ?_⟩
    · simp [try_emplace, StdMap.KeySorted]
    · intro k'
      simp [try_emplace, StdMap.find]
    · simp [try_emplace, StdMap.ids]
    · intro e he
      simp [try_emplace] at he
      exact Or.inl he
  | cons e rest ih =>
    obtain ⟨k1, v1⟩ := e
    have hs' := List.pairwise_cons.1 hs
    have hk : k ≠ k1 := by
      intro hk
      subst hk
      simp [StdMap.find] at h
    simp only [StdMap.find, if_neg hk] at h
    by_cases hlt : k < k1
    · simp only [try_emplace, if_pos hlt]
      refine ⟨trivial, trivial, ?_, ?_, ?_, ?_⟩
      · refine List.pairwise_cons.2 ⟨?_, hs⟩
        intro e he
        rcases List.mem_cons.1 he with rfl | he
        · exact hlt
        · exact lt_trans hlt (hs'.1 e he)
      · intro k'
        simp only [StdMap.find]
      · simp [StdMap.ids]
      · intro e he
        rcases List.mem_cons.1 he with rfl | he
        · exact Or.inl rfl
        · exact Or.inr he
    · have hgt : k1 < k := lt_of_le_of_ne (not_lt.1 hlt) (Ne.symm hk)
      obtain ⟨i1, i2, i3, i4, i5, i6⟩ := ih hs'.2 h
      simp only [try_emplace, if_neg hlt, if_pos hgt]
      refine ⟨i1, i2, ?_, ?_, ?_, ?_⟩
      · refine List.pairwise_cons.2 ⟨?_, i3⟩
        intro e he
        rcases i6 e he with rfl | he
        · exact hgt
        · exact hs'.1 e he
      · intro k'
        simp only [StdMap.find]
        by_cases hk1 : k' = k1
        · subst hk1
          simp [Ne.symm hk]
        · simp only [if_neg hk1]
          exact i4 k'
      · simp only [StdMap.ids, List.map_cons] at i5 ⊢
        exact (List.Perm.cons v1 i5).trans (List.Perm.swap _ _ _)
      · intro e he
        rcases List.mem_cons.1 he with rfl | he
        · exact Or.inr (List.mem_cons_self _ _)
        · rcases i6 e he with rfl | he
          · exact Or.inl rfl
          · exact Or.inr (List.mem_cons_of_mem _ he)

end TableLemmas

/-! ## Lemmas on `OperandFacts::add` -/

section InternerLemmas

variable {O : OperandTypes}

theorem ids_perm_count {K : Type} {t t' : StdMap K} {v : Nat}
    (h : List.Perm (StdMap.ids t') (v :: StdMap.ids t)) (a : Nat) :
    (StdMap.ids t').count a = (StdMap.ids t).count a + (if v = a then 1 else 0) := by
  rw [h.count_eq, List.count_cons]
  simp

theorem add_of_lookup_some (s : OperandFacts O) (hs : s.TablesSorted) (op : Operand O) (v : Nat)
    (h : s.lookup op = some v) : s.add op = (s, v) := by
  obtain ⟨h1, h2, h3, h4, h5, h6⟩ := hs
  cases op with
  | imm x =>
    simp only [OperandFacts.lookup] at h
    simp [OperandFacts.add, OperandFacts.index, try_emplace_of_find_some _ h1 x _ v h]
  | reg x =>
    simp only [OperandFacts.lookup] at h
    simp [OperandFacts.add, OperandFacts.index, try_emplace_of_find_some _ h2 x _ v h]
  | regBitFields x =>
    simp only [OperandFacts.lookup] at h
    simp [OperandFacts.add, OperandFacts.index, try_emplace_of_find_some _ h3 x _ v h]
  | fpImm x =>
    simp only [OperandFacts.lookup] at h
    simp [OperandFacts.add, OperandFacts.index, try_emplace_of_find_some _ h4 x _ v h]
  | indirect x =>
    simp only [OperandFacts.lookup] at h
    simp [OperandFacts.add, OperandFacts.index, try_emplace_of_find_some _ h5 x _ v h]
  | special x =>
    simp only [OperandFacts.lookup] at h
    simp [OperandFacts.add, OperandFacts.index, try_emplace_of_find_some _ h6 x _ v h]

theorem add_of_lookup_none (s : OperandFacts O) (hs : s.TablesSorted) (op : Operand O)
    (h : s.lookup op = none) :
    (s.add op).2 = s.Index ∧ (s.add op).1.Index = (s.Index + 1) % U64 ∧
      (s.add op).1.TablesSorted ∧
      (∀ op', (s.add op).1.lookup op' = if op' = op then some s.Index else s.lookup op') ∧
      List.Perm (s.add op).1.allIds (s.Index :: s.allIds) := by
  obtain ⟨h1, h2, h3, h4, h5, h6⟩ := hs
  cases op with
  | imm x =>
    simp only [OperandFacts.lookup] at h
    obtain ⟨i1, i2, i3, i4, i5, -⟩ := try_emplace_of_find_none _ h1 x s.Index h
    refine ⟨?_, ?_, ?_, ?_, ?_⟩
    · simp [OperandFacts.add, OperandFacts.index, i2]
    · simp [OperandFacts.add, OperandFacts.index, i1]
    · exact ⟨i3, h2, h3, h4, h5, h6⟩
    · intro op'
      cases op' <;> simp [OperandFacts.add, OperandFacts.index, OperandFacts.lookup, i4]
    · refine List.perm_iff_count.2 (fun a => ?_)
      have hc := ids_perm_count i5 a
      simp only [OperandFacts.add, OperandFacts.index, OperandFacts.allIds, List.count_append,
        List.count_cons, hc, beq_iff_eq]
      omega
  | reg x =>
    simp only [OperandFacts.lookup] at h
    obtain ⟨i1, i2, i3, i4, i5, -⟩ := try_emplace_of_find_none _ h2 x s.Index h
    refine ⟨?_, ?_, ?_, ?_, ?_⟩
    · simp [OperandFacts.add, OperandFacts.index, i2]
    · simp [OperandFacts.add, OperandFacts.index, i1]
    · exact ⟨h1, i3, h3, h4, h5, h6⟩
    · intro op'
      cases op' <;> simp [OperandFacts.add, OperandFacts.index, OperandFacts.lookup, i4]
    · refine List.perm_iff_count.2 (fun a => ?_)
      have hc := ids_perm_count i5 a
      simp only [OperandFacts.add, OperandFacts.index, OperandFacts.allIds, List.count_append,
        List.count_cons, hc, beq_iff_eq]
      omega
  | regBitFields x =>
    simp only [OperandFacts.lookup] at h
    obtain ⟨i1, i2, i3, i4, i5, -⟩ := try_emplace_of_find_none _ h3 x s.Index h
    refine ⟨?_, ?_, ?_, ?_, ?_⟩
    · simp [OperandFacts.add, OperandFacts.index, i2]
    · simp [OperandFacts.add, OperandFacts.index, i1]
    · exact ⟨h1, h2, i3, h4, h5, h6⟩
    · intro op'
      cases op' <;> simp [OperandFacts.add, OperandFacts.index, OperandFacts.lookup, i4]
    · refine List.perm_iff_count.2 (fun a => ?_)
      have hc := ids_perm_count i5 a
      simp only [OperandFacts.add, OperandFacts.index, OperandFacts.allIds, List.count_append,
        List.count_cons, hc, beq_iff_eq]
      omega
  | fpImm x =>
    simp only [OperandFacts.lookup] at h
    obtain ⟨i1, i2, i3, i4, i5, -⟩ := try_emplace_of_find_none _ h4 x s.Index h
    refine ⟨?_, ?_, ?_, ?_, ?_⟩
    · simp [OperandFacts.add, OperandFacts.index, i2]
    · simp [OperandFacts.add, OperandFacts.index, i1]
    · exact ⟨h1, h2, h3, i3, h5, h6⟩
    · intro op'
      cases op' <;> simp [OperandFacts.add, OperandFacts.index, OperandFacts.lookup, i4]
    · refine List.perm_iff_count.2 (fun a => ?_)
      have hc := ids_perm_count i5 a
      simp only [OperandFacts.add, OperandFacts.index, OperandFacts.allIds, List.count_append,
        List.count_cons, hc, beq_iff_eq]
      omega
  | indirect x =>
    simp only [OperandFacts.lookup] at h
    obtain ⟨i1, i2, i3, i4, i5, -⟩ := try_emplace_of_find_none _ h5 x s.Index h
    refine ⟨?_, ?_, ?_, ?_, ?_⟩
    · simp [OperandFacts.add, OperandFacts.index, i2]
    · simp [OperandFacts.add, OperandFacts.index, i1]
    · exact ⟨h1, h2, h3, h4, i3, h6⟩
    · intro op'
      cases op' <;> simp [OperandFacts.add, OperandFacts.index, OperandFacts.lookup, i4]
    · refine List.perm_iff_count.2 (fun a => ?_)
      have hc := ids_perm_count i5 a
      simp only [OperandFacts.add, OperandFacts.index, OperandFacts.allIds, List.count_append,
        List.count_cons, hc, beq_iff_eq]
      omega
  | special x =>
    simp only [OperandFacts.lookup] at h
    obtain ⟨i1, i2, i3, i4, i5, -⟩ := try_emplace_of_find_none _ h6 x s.Index h
    refine ⟨?_, ?_, ?_, ?_, ?_⟩
    · simp [OperandFacts.add, OperandFacts.index, i2]
    · simp [OperandFacts.add, OperandFacts.index, i1]
    · exact ⟨h1, h2, h3, h4, h5, i3⟩
    · intro op'
      cases op' <;> simp [OperandFacts.add, OperandFacts.index, OperandFacts.lookup, i4]
    · refine List.perm_iff_count.2 (fun a => ?_)
      have hc := ids_perm_count i5 a
      simp only [OperandFacts.add, OperandFacts.index, OperandFacts.allIds, List.count_append,
        List.count_cons, hc, beq_iff_eq]
      omega

theorem seeOp_extends {α : Type} [DecidableEq α] (seen : List α) (op : α) :
    seen <+: seeOp seen op := by
  unfold seeOp
  split
  · exact List.prefix_refl _
  · exact List.prefix_append _ _

theorem mem_seeOp_self {α : Type} [DecidableEq α] (seen : List α) (op : α) :
    op ∈ seeOp seen op := by
  unfold seeOp
  split
  · assumption
  · simp

theorem mem_seeOp {α : Type} [DecidableEq α] (seen : List α) (op x : α) :
    x ∈ seeOp seen op ↔ x ∈ seen ∨ x = op := by
  unfold seeOp
  split
  · constructor
    · exact Or.inl
    · rintro (h | rfl)
      · exact h
      · assumption
  · simp

theorem nodup_seeOp {α : Type} [DecidableEq α] (seen : List α) (op : α) (h : seen.Nodup) :
    (seeOp seen op).Nodup := by
  unfold seeOp
  split
  · exact h
  · rename_i hn
    exact List.nodup_append.2 ⟨h, List.nodup_singleton _, by
      intro a ha hb
      rw [List.mem_singleton] at hb
      exact hn (hb ▸ ha)⟩

theorem firstSeenFrom_extends {α : Type} [DecidableEq α] (ops : List α) (seen : List α) :
    seen <+: firstSeenFrom seen ops := by
  induction ops generalizing seen with
  | nil => exact List.prefix_refl _
  | cons op ops ih => exact (seeOp_extends seen op).trans (ih (seeOp seen op))

theorem mem_firstSeenFrom {α : Type} [DecidableEq α] (ops : List α) (seen : List α) (x : α) :
    x ∈ firstSeenFrom seen ops ↔ x ∈ seen ∨ x ∈ ops := by
  induction ops generalizing seen with
  | nil => simp [firstSeenFrom]
  | cons op ops ih =>
    have := ih (seeOp seen op)
    simp only [firstSeenFrom, List.foldl_cons] at this ⊢
    rw [this, mem_seeOp, List.mem_cons, or_assoc]

theorem nodup_firstSeenFrom {α : Type} [DecidableEq α] (ops : List α) (seen : List α)
    (h : seen.Nodup) : (firstSeenFrom seen ops).Nodup := by
  induction ops generalizing seen with
  | nil => exact h
  | cons op ops ih => exact ih (seeOp seen op) (nodup_seeOp seen op h)

theorem mem_firstSeen {α : Type} [DecidableEq α] (ops : List α) (x : α) :
    x ∈ firstSeen ops ↔ x ∈ ops := by
  simp [firstSeen, mem_firstSeenFrom]

theorem nodup_firstSeen {α : Type} [DecidableEq α] (ops : List α) : (firstSeen ops).Nodup :=
  nodup_firstSeenFrom ops [] List.nodup_nil

/-- The first-seen list has one entry per distinct operand of the sequence. -/
theorem length_firstSeen {α : Type} [DecidableEq α] (ops : List α) :
    (firstSeen ops).length = ops.toFinset.card := by
  rw [← List.toFinset_card_of_nodup (nodup_firstSeen ops)]
  congr 1
  ext x
  simp [mem_firstSeen]

theorem indexOf_of_extends {α : Type} [DecidableEq α] {l₁ l₂ : List α} (h : l₁ <+: l₂)
    {x : α} (hx : x ∈ l₁) : l₂.indexOf x = l₁.indexOf x := by
  obtain ⟨t, rfl⟩ := h
  exact List.indexOf_append_of_mem hx

theorem inv_fresh (O : OperandTypes) : (OperandFacts.fresh O).Inv [] := by
  refine ⟨rfl, List.nodup_nil, ?_, ?_, ?_⟩
  · simp [OperandFacts.TablesSorted, OperandFacts.fresh, StdMap.KeySorted]
  · intro op
    cases op <;> simp [OperandFacts.lookup, OperandFacts.fresh, StdMap.find]
  · simp [OperandFacts.allIds, OperandFacts.fresh, StdMap.ids]

/-- One `add` keeps the invariant and returns the position of the operand in the
first-seen list, plus one. -/
theorem inv_add (s : OperandFacts O) (seen : List (Operand O)) (op : Operand O)
    (hinv : s.Inv seen) (hb : (seeOp seen op).length + 1 < U64) :
    (s.add op).1.Inv (seeOp seen op) ∧ (s.add op).2 = (seeOp seen op).indexOf op + 1 := by
  obtain ⟨hI, hnd, hsorted, hlook, hperm⟩ := hinv
  by_cases hmem : op ∈ seen
  · have hl : s.lookup op = some (seen.indexOf op + 1) := by rw [hlook op, if_pos hmem]
    rw [add_of_lookup_some s hsorted op _ hl]
    simp only [seeOp, if_pos hmem]
    exact ⟨⟨hI, hnd, hsorted, hlook, hperm⟩, trivial⟩
  · have hl : s.lookup op = none := by rw [hlook op, if_neg hmem]
    obtain ⟨a1, a2, a3, a4, a5⟩ := add_of_lookup_none s hsorted op hl
    have hseen : seeOp seen op = seen ++ [op] := by simp [seeOp, hmem]
    rw [hseen] at hb ⊢
    simp only [List.length_append, List.length_singleton] at hb
    have hidx : (seen ++ [op]).indexOf op = seen.length := by
      rw [List.indexOf_append_of_not_mem hmem]
      simp
    refine ⟨⟨?_, ?_, a3, ?_, ?_⟩, ?_⟩
    · rw [a2, hI, List.length_append, List.length_singleton]
      exact Nat.mod_eq_of_lt hb
    · have := nodup_seeOp seen op hnd
      rwa [hseen] at this
    · intro op'
      rw [a4 op']
      by_cases he : op' = op
      · subst he
        simp [hidx, hI]
      · rw [if_neg he, hlook op']
        by_cases hm : op' ∈ seen
        · simp [hm, List.indexOf_append_of_mem hm]
        · simp [hm, he]
    · rw [List.length_append, List.length_singleton, List.range'_concat]
      refine a5.trans ?_
      rw [hI]
      refine (List.Perm.cons _ hperm).trans ?_
      simpa [Nat.add_comm] using (List.perm_append_singleton (seen.length + 1)
        (List.range' 1 seen.length)).symm
    · rw [a1, hI, hidx]

/-- A sequence of `add` calls keeps the invariant, and each call returns the position of
its operand in the final first-seen list, plus one. -/
theorem inv_addAll (ops : List (Operand O)) (s : OperandFacts O) (seen : List (Operand O))
    (hinv : s.Inv seen) (hb : (firstSeenFrom seen ops).length + 1 < U64) :
    (s.addAll ops).1.Inv (firstSeenFrom seen ops) ∧
      (s.addAll ops).2 = ops.map (fun op => (firstSeenFrom seen ops).indexOf op + 1) := by
  induction ops generalizing s seen with
  | nil => exact ⟨hinv, rfl⟩
  | cons op ops ih =>
    have hpre : seeOp seen op <+: firstSeenFrom (seeOp seen op) ops :=
      firstSeenFrom_extends ops _
    have hF : firstSeenFrom seen (op :: ops) = firstSeenFrom (seeOp seen op) ops := rfl
    rw [hF] at hb ⊢
    have hb1 : (seeOp seen op).length + 1 < U64 := lt_of_le_of_lt
      (Nat.add_le_add_right hpre.length_le 1) hb
    obtain ⟨s1, s2⟩ := inv_add s seen op hinv hb1
    obtain ⟨t1, t2⟩ := ih (s.add op).1 (seeOp seen op) s1 hb
    refine ⟨t1, ?_⟩
    simp only [OperandFacts.addAll, List.map_cons, t2, s2]
    rw [indexOf_of_extends hpre (mem_seeOp_self seen op)]

/-- The interner after a call sequence on a fresh interner, against the first-seen list
of the sequence. -/
theorem inv_addAll_fresh (ops : List (Operand O)) (hb : (firstSeen ops).length + 1 < U64) :
    ((OperandFacts.fresh O).addAll ops).1.Inv (firstSeen ops) ∧
      ((OperandFacts.fresh O).addAll ops).2 =
        ops.map (fun op => (firstSeen ops).indexOf op + 1) :=
  inv_addAll ops _ [] (inv_fresh O) hb

theorem tablesSorted_add (s : OperandFacts O) (op : Operand O) (hs : s.TablesSorted) :
    (s.add op).1.TablesSorted := by
  cases h : s.lookup op with
  | none => exact (add_of_lookup_none s hs op h).2.2.1
  | some v =>
    rw [add_of_lookup_some s hs op v h]
    exact hs

theorem tablesSorted_addAll (ops : List (Operand O)) (s : OperandFacts O)
    (hs : s.TablesSorted) : (s.addAll ops).1.TablesSorted := by
  induction ops generalizing s with
  | nil => exact hs
  | cons op ops ih => exact ih (s.add op).1 (tablesSorted_add s op hs)

theorem keySorted_nodup_keys {K : Type} [LinearOrder K] (m : StdMap K)
    (h : StdMap.KeySorted m) : (m.map Prod.fst).Nodup := by
  unfold StdMap.KeySorted at h
  rw [List.Nodup, List.pairwise_map]
  exact h.imp (fun hab => ne_of_lt hab)

theorem firstSeen_bound (ops : List (Operand O)) (hb : ops.toFinset.card + 1 < U64) :
    (firstSeen ops).length + 1 < U64 := by
  rw [length_firstSeen]
  exact hb

/-- After `add(op)` the interner holds for `op` the ID the call returned. -/
theorem lookup_add_self (s : OperandFacts O) (hs : s.TablesSorted) (op : Operand O) :
    (s.add op).1.lookup op = some (s.add op).2 := by
  cases h : s.lookup op with
  | none =>
    obtain ⟨a1, -, -, a4, -⟩ := add_of_lookup_none s hs op h
    rw [a4 op, if_pos rfl, a1]
  | some v =>
    rw [add_of_lookup_some s hs op v h]
    exact h

/-- An ID the interner holds is never changed by a later `add`. -/
theorem lookup_add_of_some (s : OperandFacts O) (hs : s.TablesSorted) (op op' : Operand O)
    (v : Nat) (hv : s.lookup op' = some v) : (s.add op).1.lookup op' = some v := by
  cases h : s.lookup op with
  | none =>
    obtain ⟨-, -, -, a4, -⟩ := add_of_lookup_none s hs op h
    have hne : op' ≠ op := by
      rintro rfl
      rw [h] at hv
      exact Option.noConfusion hv
    rw [a4 op', if_neg hne, hv]
  | some w =>
    rw [add_of_lookup_some s hs op w h]
    exact hv

/-- Once the interner holds an ID for an operand, every later `add` of that operand
returns it. -/
theorem addAll_returns_held (ops : List (Operand O)) (s : OperandFacts O)
    (hs : s.TablesSorted) (op : Operand O) (v : Nat) (hv : s.lookup op = some v) (j : Nat)
    (hj : ops[j]? = some op) : (s.addAll ops).2[j]? = some v := by
  induction ops generalizing s j with
  | nil => simp at hj
  | cons op0 ops ih =>
    cases j with
    | zero =>
      simp only [List.getElem?_cons_zero, Option.some.injEq] at hj
      subst hj
      simp only [OperandFacts.addAll, List.getElem?_cons_zero, Option.some.injEq]
      rw [add_of_lookup_some s hs op0 v hv]
    | succ j =>
      simp only [List.getElem?_cons_succ] at hj
      simp only [OperandFacts.addAll, List.getElem?_cons_succ]
      exact ih _ (tablesSorted_add s op0 hs) (lookup_add_of_some s hs op0 op v hv) j hj

/-- Two calls with the same operand, the earlier at position `i`, return the same ID. -/
theorem addAll_same_id (ops : List (Operand O)) (s : OperandFacts O) (hs : s.TablesSorted)
    (i j : Nat) (hij : i < j) (op : Operand O) (hi : ops[i]? = some op)
    (hj : ops[j]? = some op) :
    ∃ id, (s.addAll ops).2[i]? = some id ∧ (s.addAll ops).2[j]? = some id := by
  induction ops generalizing s i j with
  | nil => simp at hi
  | cons op0 ops ih =>
    obtain ⟨j, rfl⟩ : ∃ j', j = j' + 1 := ⟨j - 1, by omega⟩
    simp only [List.getElem?_cons_succ] at hj
    cases i with
    | zero =>
      simp only [List.getElem?_cons_zero, Option.some.injEq] at hi
      subst hi
      refine ⟨(s.add op0).2, by simp [OperandFacts.addAll], ?_⟩
      simp only [OperandFacts.addAll, List.getElem?_cons_succ]
      exact addAll_returns_held ops _ (tablesSorted_add s op0 hs) op0 _
        (lookup_add_self s hs op0) j hj
    | succ i =>
      simp only [List.getElem?_cons_succ] at hi
      simp only [OperandFacts.addAll, List.getElem?_cons_succ]
      exact ih _ (tablesSorted_add s op0 hs) i j (by omega) hi hj

theorem firstSeenFrom_append {α : Type} [DecidableEq α] (seen p q : List α) :
    firstSeenFrom seen (p ++ q) = firstSeenFrom (firstSeenFrom seen p) q := by
  simp [firstSeenFrom, List.foldl_append]

/-- An operand that occurs at position `i` of a call sequence and not before stands in
the first-seen list right after the distinct operands of the first `i` calls. -/
theorem indexOf_firstSeen_of_new {α : Type} [DecidableEq α] (ops : List α) (i : Nat)
    (hi : i < ops.length) (hnew : ops[i] ∉ ops.take i) :
    (firstSeen ops).indexOf ops[i] = (ops.take i).toFinset.card := by
  have hsplit : ops = ops.take i ++ ([ops[i]] ++ ops.drop (i + 1)) := by
    rw [List.singleton_append, List.getElem_cons_drop, List.take_append_drop]
  have hnew' : ops[i] ∉ firstSeen (ops.take i) := by
    rw [mem_firstSeen]
    exact hnew
  have hF : firstSeen ops =
      firstSeenFrom (firstSeen (ops.take i) ++ [ops[i]]) (ops.drop (i + 1)) := by
    conv_lhs => rw [hsplit]
    unfold firstSeen
    rw [firstSeenFrom_append, firstSeenFrom_append]
    congr 1
    simp only [firstSeenFrom, List.foldl_cons, List.foldl_nil, seeOp]
    rw [if_neg]
    exact hnew'
  have hpre := firstSeenFrom_extends (ops.drop (i + 1)) (firstSeen (ops.take i) ++ [ops[i]])
  rw [← hF] at hpre
  rw [indexOf_of_extends hpre (by simp), List.indexOf_append_of_not_mem hnew',
    List.indexOf_cons_self, Nat.add_zero, length_firstSeen]

end InternerLemmas

/-! ## Lemmas on the blind-scan loop -/

section LoopLemmas

variable {O : OperandTypes} {T : FactTypes}

theorem U64_eq : U64 = 18446744073709551616 := by norm_num [U64]

theorem addrAfter_succ (S A k : Nat) :
    addrAfter S ((A + S) % U64) k = addrAfter S A (k + 1) := by
  unfold addrAfter
  rw [Nat.mod_add_mod]
  congr 1
  ring

theorem sizeAfter_succ (S Sz k : Nat) (hS : S ≤ U64) :
    sizeAfter S ((Sz + U64 - S) % U64) k = sizeAfter S Sz (k + 1) := by
  unfold sizeAfter
  rw [Nat.mod_add_mod]
  congr 1
  have h : Sz + U64 - S = Sz + (U64 - S) := by omega
  rw [h]
  ring

theorem sizeAfter_zero (S Sz : Nat) (h : Sz < U64) : sizeAfter S Sz 0 = Sz := by
  simp [sizeAfter, Nat.mod_eq_of_lt h]

theorem addrAfter_zero (S A : Nat) (h : A < U64) : addrAfter S A 0 = A := by
  simp [addrAfter, Nat.mod_eq_of_lt h]

theorem U64_pos : 0 < U64 := by
  rw [U64_eq]
  decide

/-- The `k`-th call of the loop gets the address, the length and the data pointer after
`k` iterations, and its length is positive. -/
theorem loadLoop_call (L : InstructionLoader O T) (hS : L.InstructionSize ≤ U64) (fuel : Nat)
    (F : BinaryFacts O T) (D : BytePtr) (Sz A : Nat) (hSz : Sz < U64) (hA : A < U64)
    (k : Nat) (c : DecodeCall O T) (hc : (L.loadLoop fuel F D Sz A).calls[k]? = some c) :
    c.Addr = addrAfter L.InstructionSize A k ∧ c.Size = sizeAfter L.InstructionSize Sz k ∧
      c.Bytes = ⟨D.buffer, D.offset + k * L.InstructionSize⟩ ∧ 0 < c.Size := by
  induction fuel generalizing F D Sz A k with
  | zero =>
    unfold InstructionLoader.loadLoop at hc
    split at hc <;> simp at hc
  | succ fuel ih =>
    unfold InstructionLoader.loadLoop at hc
    by_cases hpos : Sz > 0
    · simp only [if_pos hpos] at hc
      cases k with
      | zero =>
        simp only [List.getElem?_cons_zero, Option.some.injEq] at hc
        subst hc
        simp [addrAfter_zero _ _ hA, sizeAfter_zero _ _ hSz, hpos]
      | succ k =>
        simp only [List.getElem?_cons_succ] at hc
        obtain ⟨h1, h2, h3, h4⟩ := ih _ _ _ _ (Nat.mod_lt _ U64_pos) (Nat.mod_lt _ U64_pos) k hc
        refine ⟨?_, ?_, ?_, h4⟩
        · rw [h1, addrAfter_succ]
        · rw [h2, sizeAfter_succ _ _ _ hS]
        · rw [h3]
          simp only [BytePtr.mk.injEq, true_and]
          ring
    · simp only [if_neg hpos] at hc
      simp at hc

/-- When the loop returns, the length has reached zero after as many iterations as
there were calls. -/
theorem loadLoop_done_size (L : InstructionLoader O T) (hS : L.InstructionSize ≤ U64)
    (fuel : Nat) (F : BinaryFacts O T) (D : BytePtr) (Sz A : Nat) (hSz : Sz < U64)
    (F1 : BinaryFacts O T) (hd : (L.loadLoop fuel F D Sz A).outcome = .done F1) :
    sizeAfter L.InstructionSize Sz (L.loadLoop fuel F D Sz A).calls.length = 0 := by
  induction fuel generalizing F D Sz A with
  | zero =>
    unfold InstructionLoader.loadLoop at hd ⊢
    by_cases hpos : Sz > 0
    · simp [if_pos hpos] at hd
    · simp only [if_neg hpos, List.length_nil]
      rw [sizeAfter_zero _ _ hSz]
      omega
  | succ fuel ih =>
    unfold InstructionLoader.loadLoop at hd ⊢
    by_cases hpos : Sz > 0
    · simp only [if_pos hpos] at hd ⊢
      simp only [List.length_cons]
      rw [← sizeAfter_succ _ _ _ hS]
      exact ih _ _ _ _ (Nat.mod_lt _ U64_pos) hd
    · simp only [if_neg hpos, List.length_nil]
      rw [sizeAfter_zero _ _ hSz]
      omega

/-- While the stride fits under the remaining length, the length after `n` iterations
is the plain difference. -/
theorem sizeAfter_of_le (S Sz n : Nat) (hS : S ≤ U64) (hSz : Sz < U64) (h : n * S ≤ Sz) :
    sizeAfter S Sz n = Sz - n * S := by
  unfold sizeAfter
  have h1 : Sz + n * (U64 - S) = (Sz - n * S) + n * U64 := by
    rw [Nat.mul_sub]
    have : n * S ≤ n * U64 := Nat.mul_le_mul_left n hS
    omega
  rw [h1, Nat.add_mul_mod_self_right]
  exact Nat.mod_eq_of_lt (lt_of_le_of_lt (Nat.sub_le _ _) hSz)

/-- If two iterations see the same address and the length is zero after `n` iterations,
the length was already zero earlier. -/
theorem sizeAfter_eq_zero_earlier (S Sz A i j n : Nat) (hS : S ≤ U64) (hij : i < j)
    (hjn : j ≤ n) (haddr : addrAfter S A i = addrAfter S A j) (hn : sizeAfter S Sz n = 0) :
    sizeAfter S Sz (n - (j - i)) = 0 := by
  obtain ⟨m, rfl⟩ : ∃ m, j = i + m := ⟨j - i, by omega⟩
  have hm : i + m - i = m := by omega
  rw [hm]
  unfold addrAfter at haddr
  unfold sizeAfter at hn ⊢
  have h1 : Nat.ModEq U64 (A + i * S + 0) (A + i * S + m * S) := by
    have : A + (i + m) * S = A + i * S + m * S := by ring
    rw [Nat.ModEq, Nat.add_zero, haddr, this]
  have h2 : Nat.ModEq U64 0 (m * S) := Nat.ModEq.add_left_cancel' _ h1
  have h3 : Nat.ModEq U64 (m * (U64 - S) + m * S) (0 + 0) := by
    have : m * (U64 - S) + m * S = m * U64 := by
      rw [← Nat.mul_add, Nat.sub_add_cancel hS]
    rw [this, Nat.add_zero]
    exact (Nat.modEq_zero_iff_dvd).2 (Dvd.intro_left m rfl)
  have h4 : Nat.ModEq U64 (m * (U64 - S)) 0 := Nat.ModEq.add_right_cancel h2.symm h3
  have h5 : Sz + n * (U64 - S) = Sz + (n - m) * (U64 - S) + m * (U64 - S) := by
    have : n = (n - m) + m := by omega
    conv_lhs => rw [this]
    ring
  have h6 : Nat.ModEq U64 (Sz + (n - m) * (U64 - S) + m * (U64 - S))
      (Sz + (n - m) * (U64 - S) + 0) := Nat.ModEq.add_left _ h4
  rw [h5] at hn
  have h7 : (Sz + (n - m) * (U64 - S) + 0) % U64 =
      (Sz + (n - m) * (U64 - S) + m * (U64 - S)) % U64 := h6.symm
  rw [Nat.add_zero] at h7
  rw [h7, hn]

/-- A loop that returns has passed every address to `decode` at most once. -/
theorem loadLoop_addrs_nodup (L : InstructionLoader O T) (hS : L.InstructionSize ≤ U64)
    (fuel : Nat) (F : BinaryFacts O T) (D : BytePtr) (Sz A : Nat) (hSz : Sz < U64)
    (hA : A < U64) (F1 : BinaryFacts O T)
    (hd : (L.loadLoop fuel F D Sz A).outcome = .done F1) :
    ((L.loadLoop fuel F D Sz A).calls.map DecodeCall.Addr).Nodup := by
  rw [List.nodup_iff_getElem?_ne_getElem?]
  intro i j hij hj heq
  rw [List.length_map] at hj
  have hi : i < (L.loadLoop fuel F D Sz A).calls.length := lt_trans hij hj
  rw [List.getElem?_map, List.getElem?_map, List.getElem?_eq_getElem hi,
    List.getElem?_eq_getElem hj] at heq
  simp only [Option.map_some', Option.some.injEq] at heq
  have ci := loadLoop_call L hS fuel F D Sz A hSz hA i _ (List.getElem?_eq_getElem hi)
  have cj := loadLoop_call L hS fuel F D Sz A hSz hA j _ (List.getElem?_eq_getElem hj)
  have hlen := loadLoop_done_size L hS fuel F D Sz A hSz F1 hd
  have haddr : addrAfter L.InstructionSize A i = addrAfter L.InstructionSize A j := by
    rw [← ci.1, ← cj.1, heq]
  have hz := sizeAfter_eq_zero_earlier _ Sz A i j _ hS hij (le_of_lt hj) haddr hlen
  have hk : (L.loadLoop fuel F D Sz A).calls.length - (j - i) <
      (L.loadLoop fuel F D Sz A).calls.length := by omega
  have ck := loadLoop_call L hS fuel F D Sz A hSz hA _ _ (List.getElem?_eq_getElem hk)
  rw [ck.2.1, hz] at ck
  exact absurd ck.2.2.2 (lt_irrefl 0)

/-- A loop that returns has called `decode` at every stride position of the region, in
order. -/
theorem loadLoop_covers (L : InstructionLoader O T) (hS : L.InstructionSize ≤ U64)
    (fuel : Nat) (F : BinaryFacts O T) (D : BytePtr) (Sz A : Nat) (hSz : Sz < U64)
    (hA : A < U64) (F1 : BinaryFacts O T)
    (hd : (L.loadLoop fuel F D Sz A).outcome = .done F1) (k : Nat)
    (hk : k * L.InstructionSize < Sz) :
    ∃ c, (L.loadLoop fuel F D Sz A).calls[k]? = some c ∧
      c.Addr = (A + k * L.InstructionSize) % U64 := by
  have hlen := loadLoop_done_size L hS fuel F D Sz A hSz F1 hd
  have hlt : k < (L.loadLoop fuel F D Sz A).calls.length := by
    by_contra hge
    have hge' : (L.loadLoop fuel F D Sz A).calls.length ≤ k := not_lt.1 hge
    have hmul : (L.loadLoop fuel F D Sz A).calls.length * L.InstructionSize ≤
        k * L.InstructionSize := Nat.mul_le_mul_right _ hge'
    rw [sizeAfter_of_le _ _ _ hS hSz (le_of_lt (lt_of_le_of_lt hmul hk))] at hlen
    omega
  refine ⟨_, List.getElem?_eq_getElem hlt, ?_⟩
  exact (loadLoop_call L hS fuel F D Sz A hSz hA k _ (List.getElem?_eq_getElem hlt)).1

/-- When the stride is positive and divides the remaining length, the loop returns
after `Size / InstructionSize` iterations. -/
theorem loadLoop_terminates (L : InstructionLoader O T) (hpos : 0 < L.InstructionSize)
    (n : Nat) (F : BinaryFacts O T) (D : BytePtr) (Sz A : Nat) (hSz : Sz < U64)
    (hn : Sz = n * L.InstructionSize) :
    (∃ F1, (L.loadLoop n F D Sz A).outcome = .done F1) ∧
      (L.loadLoop n F D Sz A).calls.length = n := by
  induction n generalizing F D Sz A with
  | zero =>
    have : Sz = 0 := by simpa using hn
    subst this
    exact ⟨⟨F, by simp [InstructionLoader.loadLoop]⟩, by simp [InstructionLoader.loadLoop]⟩
  | succ n ih =>
    have hSpos : Sz > 0 := by
      rw [hn]
      exact Nat.mul_pos (Nat.succ_pos n) hpos
    have hnext : (Sz + U64 - L.InstructionSize) % U64 = n * L.InstructionSize := by
      have h1 : Sz + U64 - L.InstructionSize = n * L.InstructionSize + U64 := by
        rw [hn, Nat.succ_mul]
        omega
      rw [h1, Nat.add_mod_right]
      apply Nat.mod_eq_of_lt
      have : n * L.InstructionSize ≤ Sz := by
        rw [hn, Nat.succ_mul]
        exact Nat.le_add_right _ _
      omega
    have hlt : n * L.InstructionSize < U64 := by
      rw [← hnext]
      exact Nat.mod_lt _ U64_pos
    obtain ⟨⟨F1, h1⟩, h2⟩ := ih (L.decode F D Sz A)
      ⟨D.buffer, D.offset + L.InstructionSize⟩ (n * L.InstructionSize)
      ((A + L.InstructionSize) % U64) hlt rfl
    unfold InstructionLoader.loadLoop
    simp only [if_pos hSpos, hnext]
    exact ⟨⟨F1, h1⟩, by simp [h2]⟩

theorem not_failed_of_succeeded (F F1 : BinaryFacts O T) (A : Nat)
    (h : SucceededAt F F1 A) : ¬ FailedAt F F1 A := by
  obtain ⟨I, -, -, h2⟩ := h
  rintro ⟨h3, -⟩
  rw [h2] at h3
  have := congrArg List.length h3
  simp at this

/-- The streams after a returned loop with a contract-following hook, against the calls
made: invalid addresses are kept, each call adds at most one invalid address, a failed
call leaves its address in the invalid stream, and every new instruction record stems
from a call at its address that did not fail. -/
theorem loadLoop_facts (L : InstructionLoader O T) (hc : FollowsContract L.decode)
    (fuel : Nat) (F : BinaryFacts O T) (D : BytePtr) (Sz A : Nat) (F1 : BinaryFacts O T)
    (hd : (L.loadLoop fuel F D Sz A).outcome = .done F1) :
    (∀ a ∈ F.Instructions.InvalidInstructions, a ∈ F1.Instructions.InvalidInstructions) ∧
    (∀ a, F1.Instructions.InvalidInstructions.count a ≤
      F.Instructions.InvalidInstructions.count a +
        ((L.loadLoop fuel F D Sz A).calls.map DecodeCall.Addr).count a) ∧
    (∀ c ∈ (L.loadLoop fuel F D Sz A).calls, c.Failed L →
      c.Addr ∈ F1.Instructions.InvalidInstructions) ∧
    (∀ I ∈ F1.Instructions.Instructions, I ∈ F.Instructions.Instructions ∨
      ∃ c ∈ (L.loadLoop fuel F D Sz A).calls, c.Addr = T.address I ∧ ¬ c.Failed L) := by
  induction fuel generalizing F D Sz A with
  | zero =>
    unfold InstructionLoader.loadLoop at hd ⊢
    by_cases hpos : Sz > 0
    · simp [if_pos hpos] at hd
    · simp only [if_neg hpos, Outcome.done.injEq] at hd ⊢
      subst hd
      simp
  | succ fuel ih =>
    unfold InstructionLoader.loadLoop at hd ⊢
    by_cases hpos : Sz > 0
    · simp only [if_pos hpos] at hd ⊢
      obtain ⟨i1, i2, i3, i4⟩ := ih _ _ _ _ hd
      rcases hc F D Sz A with hf | hs
      · have hf' := hf
        obtain ⟨f1, f2⟩ := hf
        rw [f1] at i1 i2
        rw [f2] at i4
        refine ⟨?_, ?_, ?_, ?_⟩
        · intro a ha
          exact i1 a (List.mem_append_left _ ha)
        · intro a
          have := i2 a
          simp only [List.count_append, List.map_cons, List.count_cons, List.count_nil,
            beq_iff_eq] at this ⊢
          omega
        · intro c hcm hfail
          rcases List.mem_cons.1 hcm with rfl | hcm
          · exact i1 _ (by simp)
          · exact i3 c hcm hfail
        · intro I hI
          rcases i4 I hI with h | ⟨c, hcm, h1, h2⟩
          · exact Or.inl h
          · exact Or.inr ⟨c, List.mem_cons_of_mem _ hcm, h1, h2⟩
      · have hnf := not_failed_of_succeeded _ _ _ hs
        obtain ⟨I0, s0, s1, s2⟩ := hs
        rw [s2] at i1 i2
        rw [s1] at i4
        refine ⟨i1, ?_, ?_, ?_⟩
        · intro a
          have := i2 a
          simp only [List.map_cons, List.count_cons, beq_iff_eq] at this ⊢
          omega
        · intro c hcm hfail
          rcases List.mem_cons.1 hcm with rfl | hcm
          · exact absurd hfail hnf
          · exact i3 c hcm hfail
        · intro I hI
          rcases i4 I hI with h | ⟨c, hcm, h1, h2⟩
          · rcases List.mem_append.1 h with h | h
            · exact Or.inl h
            · rw [List.mem_singleton] at h
              subst h
              exact Or.inr ⟨_, List.mem_cons_self _ _, s0.symm, hnf⟩
          · exact Or.inr ⟨c, List.mem_cons_of_mem _ hcm, h1, h2⟩
    · simp only [if_neg hpos, Outcome.done.injEq] at hd ⊢
      subst hd
      simp

theorem loadLoop_step (L : InstructionLoader O T) (fuel : Nat) (F : BinaryFacts O T)
    (D : BytePtr) (Sz A : Nat) (hpos : 0 < Sz) :
    L.loadLoop (fuel + 1) F D Sz A =
      ⟨⟨F, D, Sz, A⟩ :: (L.loadLoop fuel (L.decode F D Sz A)
          ⟨D.buffer, D.offset + L.InstructionSize⟩
          ((Sz + U64 - L.InstructionSize) % U64) ((A + L.InstructionSize) % U64)).calls,
        (L.loadLoop fuel (L.decode F D Sz A)
          ⟨D.buffer, D.offset + L.InstructionSize⟩
          ((Sz + U64 - L.InstructionSize) % U64) ((A + L.InstructionSize) % U64)).outcome⟩ := by
  have h : Sz > 0 := hpos
  rw [InstructionLoader.loadLoop, if_pos h]

theorem loadLoop_size_zero (L : InstructionLoader O T) (fuel : Nat) (F : BinaryFacts O T)
    (D : BytePtr) (A : Nat) : L.loadLoop fuel F D 0 A = ⟨[], .done F⟩ := by
  cases fuel <;> simp [InstructionLoader.loadLoop]

theorem loadLoop_zero_calls (L : InstructionLoader O T) (F : BinaryFacts O T)
    (D : BytePtr) (Sz A : Nat) : (L.loadLoop 0 F D Sz A).calls = [] := by
  unfold InstructionLoader.loadLoop
  split <;> rfl

/-- With stride 2 an odd remaining length stays odd, so the loop never sees
`Size == 0`: it is still running after any number of iterations. -/
theorem loadLoop_stride_two_odd (decode : BinaryFacts O T → BytePtr → Nat → Nat → BinaryFacts O T)
    (fuel : Nat) (F : BinaryFacts O T) (D : BytePtr) (Sz A : Nat) (hodd : Sz % 2 = 1) :
    ((⟨2, decode⟩ : InstructionLoader O T).loadLoop fuel F D Sz A).outcome = .outOfFuel ∧
      ((⟨2, decode⟩ : InstructionLoader O T).loadLoop fuel F D Sz A).calls.length = fuel := by
  have hpos : Sz > 0 := by omega
  induction fuel generalizing F D Sz A with
  | zero => simp [InstructionLoader.loadLoop, hpos]
  | succ fuel ih =>
    have hnext : ((Sz + U64 - 2) % U64) % 2 = 1 := by
      rw [U64_eq]
      omega
    obtain ⟨h1, h2⟩ := ih (decode F D Sz A) ⟨D.buffer, D.offset + 2⟩ ((Sz + U64 - 2) % U64)
      ((A + 2) % U64) hnext (by omega)
    unfold InstructionLoader.loadLoop
    simp only [if_pos hpos]
    exact ⟨h1, by simp [h2]⟩

theorem sampleDecode_follows_contract : FollowsContract sampleDecode := by
  intro F Bytes Size Addr
  unfold sampleDecode
  split
  · exact Or.inr ⟨_, rfl, rfl, rfl⟩
  · exact Or.inl ⟨rfl, rfl⟩

theorem loadBlock_of_asserted (L : InstructionLoader O T) (B : CodeBlock)
    (F : BinaryFacts O T) (h : B.Asserted) :
    ∃ c, CodeBlockLoader.loadBlock L B F =
        ⟨[c], .done (L.decode F c.Bytes c.Size c.Addr)⟩ ∧ c.Facts = F ∧
      B.getAddress = some c.Addr ∧
      c.Bytes = ⟨B.getByteInterval.rawBytes, B.getOffset⟩ ∧
      c.Size = (B.getByteInterval.getInitializedSize + U64 - B.getOffset) % U64 := by
  obtain ⟨Addr, BaseAddr, h1, h2, h3⟩ := h
  refine ⟨⟨F, ⟨B.getByteInterval.rawBytes, B.getOffset⟩,
    (B.getByteInterval.getInitializedSize + U64 - B.getOffset) % U64, Addr⟩, ?_, rfl, h1, rfl, rfl⟩
  simp only [CodeBlockLoader.loadBlock, h1, h2, if_pos h3]

end LoopLemmas

/-! ## The operand interner: claims C1, C2, C7, C8, C9 -/

section InternerClaims

variable {O : OperandTypes}

/-- C1 (interning dedup, equal values): in every sequence of `add` calls on a fresh
interner, two calls with the same operand return the same ID, whatever operands, of
whichever alternative, were added in between; so every `add(v)` after the first returns
the ID of the first. -/
theorem add_equal_operands_same_id (ops : List (Operand O)) (i j : Nat)
    (hi : i < ops.length) (hj : j < ops.length) (h : ops[i] = ops[j]) :
    ∃ id, ((OperandFacts.fresh O).addAll ops).2[i]? = some id ∧
      ((OperandFacts.fresh O).addAll ops).2[j]? = some id := by
  have hs : (OperandFacts.fresh O).TablesSorted := (inv_fresh O).2.2.1
  have hi' : ops[i]? = some ops[i] := List.getElem?_eq_getElem hi
  have hj' : ops[j]? = some ops[i] := by rw [h]; exact List.getElem?_eq_getElem hj
  rcases lt_trichotomy i j with hlt | heq | hgt
  · exact addAll_same_id ops _ hs i j hlt _ hi' hj'
  · subst heq
    have hlen : ∀ (l : List (Operand O)) (t : OperandFacts O),
        (t.addAll l).2.length = l.length := by
      intro l
      induction l with
      | nil => intro t; rfl
      | cons a l ih => intro t; simp [OperandFacts.addAll, ih]
    have hi2 : i < ((OperandFacts.fresh O).addAll ops).2.length := by rw [hlen]; exact hi
    exact ⟨_, List.getElem?_eq_getElem hi2, List.getElem?_eq_getElem hi2⟩
  · obtain ⟨id, h1, h2⟩ := addAll_same_id ops _ hs j i hgt _ hj' hi'
    exact ⟨id, h2, h1⟩

/-- Witness for C1: immediate 42, then immediate 7, then immediate 42: the first and
the third call return the same ID. -/
theorem add_equal_operands_same_id_witness :
    ∃ id, ((OperandFacts.fresh sampleOperandTypes).addAll
        [.imm (42 : Int), .imm (7 : Int), .imm (42 : Int)]).2[0]? = some id ∧
      ((OperandFacts.fresh sampleOperandTypes).addAll
        [.imm (42 : Int), .imm (7 : Int), .imm (42 : Int)]).2[2]? = some id :=
  add_equal_operands_same_id (O := sampleOperandTypes)
    [.imm (42 : Int), .imm (7 : Int), .imm (42 : Int)] 0 2 (by decide) (by decide) (by decide)

/-- C2 (interning dedup, distinct values): in a sequence of `add` calls on a fresh
interner holding fewer than `2 ^ 64 - 1` distinct operands, two calls whose operands
differ, in alternative or in value, return different IDs, and every returned ID is
greater than zero. -/
theorem add_distinct_operands_distinct_ids (ops : List (Operand O))
    (hb : ops.toFinset.card + 1 < U64) :
    (∀ i j (hi : i < ops.length) (hj : j < ops.length), ops[i] ≠ ops[j] →
      ∃ a b, ((OperandFacts.fresh O).addAll ops).2[i]? = some a ∧
        ((OperandFacts.fresh O).addAll ops).2[j]? = some b ∧ a ≠ b) ∧
    (∀ id ∈ ((OperandFacts.fresh O).addAll ops).2, 0 < id) := by
  obtain ⟨-, hids⟩ := inv_addAll_fresh ops (firstSeen_bound ops hb)
  constructor
  · intro i j hi hj hne
    refine ⟨(firstSeen ops).indexOf ops[i] + 1, (firstSeen ops).indexOf ops[j] + 1, ?_, ?_, ?_⟩
    · rw [hids, List.getElem?_map, List.getElem?_eq_getElem hi]
      rfl
    · rw [hids, List.getElem?_map, List.getElem?_eq_getElem hj]
      rfl
    · intro heq
      have hmi : ops[i] ∈ firstSeen ops := (mem_firstSeen ops _).2 (List.getElem_mem hi)
      have hmj : ops[j] ∈ firstSeen ops := (mem_firstSeen ops _).2 (List.getElem_mem hj)
      exact hne ((List.indexOf_inj hmi hmj).1 (Nat.succ_injective heq))
  · intro id hid
    rw [hids, List.mem_map] at hid
    obtain ⟨op, -, rfl⟩ := hid
    exact Nat.succ_pos _

/-- Witness for C2: an immediate 5, a register 5 and an immediate 7 get three
different positive IDs. -/
theorem add_distinct_operands_distinct_ids_witness :
    ((OperandFacts.fresh sampleOperandTypes).addAll
        [.imm (5 : Int), .reg (5 : Nat), .imm (7 : Int)]).2 = [1, 2, 3] ∧
    ((∀ i j (hi : i < 3) (hj : j < 3),
      ([.imm (5 : Int), .reg (5 : Nat), .imm (7 : Int)] : List (Operand sampleOperandTypes))[i] ≠
        ([.imm (5 : Int), .reg (5 : Nat), .imm (7 : Int)] : List (Operand sampleOperandTypes))[j] →
      ∃ a b, ((OperandFacts.fresh sampleOperandTypes).addAll
          [.imm (5 : Int), .reg (5 : Nat), .imm (7 : Int)]).2[i]? = some a ∧
        ((OperandFacts.fresh sampleOperandTypes).addAll
          [.imm (5 : Int), .reg (5 : Nat), .imm (7 : Int)]).2[j]? = some b ∧ a ≠ b) ∧
    (∀ id ∈ ((OperandFacts.fresh sampleOperandTypes).addAll
        [.imm (5 : Int), .reg (5 : Nat), .imm (7 : Int)]).2, 0 < id)) :=
  ⟨by decide, add_distinct_operands_distinct_ids (O := sampleOperandTypes)
    [.imm (5 : Int), .reg (5 : Nat), .imm (7 : Int)] (by decide)⟩

/-- C7, as stated, fails: after `add(42)` and `add(7)` on immediates, iterating `imm()`
meets the entry of 7 (ID 2) before the entry of 42 (ID 1), so the IDs met are not
increasing. -/
theorem imm_enumeration_not_ascending_ids :
    ((OperandFacts.fresh sampleOperandTypes).addAll
        [.imm (42 : Int), .imm (7 : Int)]).1.imm = [((7 : Int), 2), ((42 : Int), 1)] ∧
    ¬ (StdMap.ids ((OperandFacts.fresh sampleOperandTypes).addAll
        [.imm (42 : Int), .imm (7 : Int)]).1.imm).Pairwise (fun a b => a < b) := by
  decide

/-- C7, amended: in every interner state reached from a fresh `OperandFacts` by `add`
calls, each of `imm()`, `reg()`, `fp_imm()`, `indirect()` and `special()` lists its
entries in strictly ascending order of the operand value, the key of the map. -/
theorem enumeration_ascending_keys (ops : List (Operand O)) :
    StdMap.KeySorted ((OperandFacts.fresh O).addAll ops).1.imm ∧
    StdMap.KeySorted ((OperandFacts.fresh O).addAll ops).1.reg ∧
    StdMap.KeySorted ((OperandFacts.fresh O).addAll ops).1.fp_imm ∧
    StdMap.KeySorted ((OperandFacts.fresh O).addAll ops).1.indirect ∧
    StdMap.KeySorted ((OperandFacts.fresh O).addAll ops).1.special := by
  obtain ⟨h1, h2, -, h4, h5, h6⟩ :=
    tablesSorted_addAll ops (OperandFacts.fresh O) (inv_fresh O).2.2.1
  exact ⟨h1, h2, h4, h5, h6⟩

/-- C8, as stated, fails: after immediate 1, register 0, immediate 2 the immediate
table holds the IDs 1 and 3 but not 2, which is held by the register table. -/
theorem imm_table_ids_not_contiguous :
    StdMap.ids ((OperandFacts.fresh sampleOperandTypes).addAll
        [.imm (1 : Int), .reg (0 : Nat), .imm (2 : Int)]).1.Imm = [1, 3] ∧
    ¬ Contiguous (StdMap.ids ((OperandFacts.fresh sampleOperandTypes).addAll
        [.imm (1 : Int), .reg (0 : Nat), .imm (2 : Int)]).1.Imm) := by
  refine ⟨by decide, fun h => ?_⟩
  have h2 := h 1 (by decide) 3 (by decide) 2 (by decide) (by decide)
  revert h2
  decide

/-- C8, amended: in every interner state reached from a fresh `OperandFacts` by `add`
calls (fewer than `2 ^ 64 - 1` distinct operands), each alternative's table maps operand
values to IDs one-to-one, and the IDs of the six tables taken together form a contiguous
range; the IDs of a single table need not. -/
theorem tables_one_to_one_ids_jointly_contiguous (ops : List (Operand O))
    (hb : ops.toFinset.card + 1 < U64) :
    StdMap.OneToOne ((OperandFacts.fresh O).addAll ops).1.Imm ∧
    StdMap.OneToOne ((OperandFacts.fresh O).addAll ops).1.Reg ∧
    StdMap.OneToOne ((OperandFacts.fresh O).addAll ops).1.RegBitFields ∧
    StdMap.OneToOne ((OperandFacts.fresh O).addAll ops).1.FPImm ∧
    StdMap.OneToOne ((OperandFacts.fresh O).addAll ops).1.Indirect ∧
    StdMap.OneToOne ((OperandFacts.fresh O).addAll ops).1.Special ∧
    ((OperandFacts.fresh O).addAll ops).1.allIds.Nodup ∧
    Contiguous ((OperandFacts.fresh O).addAll ops).1.allIds := by
  obtain ⟨⟨-, -, ⟨s1, s2, s3, s4, s5, s6⟩, -, hperm⟩, -⟩ :=
    inv_addAll_fresh ops (firstSeen_bound ops hb)
  have hnd : ((OperandFacts.fresh O).addAll ops).1.allIds.Nodup :=
    hperm.nodup_iff.2 (List.nodup_range' 1 _)
  have hnd' := hnd
  unfold OperandFacts.allIds at hnd'
  obtain ⟨n5, n6, -⟩ := List.nodup_append.1 hnd'
  obtain ⟨n4, n5', -⟩ := List.nodup_append.1 n5
  obtain ⟨n3, n4', -⟩ := List.nodup_append.1 n4
  obtain ⟨n2, n3', -⟩ := List.nodup_append.1 n3
  obtain ⟨n1, n2', -⟩ := List.nodup_append.1 n2
  refine ⟨⟨keySorted_nodup_keys _ s1, n1⟩, ⟨keySorted_nodup_keys _ s2, n2'⟩,
    ⟨keySorted_nodup_keys _ s3, n3'⟩, ⟨keySorted_nodup_keys _ s4, n4'⟩,
    ⟨keySorted_nodup_keys _ s5, n5'⟩, ⟨keySorted_nodup_keys _ s6, n6⟩, hnd, ?_⟩
  intro a ha b hb' c hac hcb
  rw [hperm.mem_iff, List.mem_range'_1] at ha hb' ⊢
  omega

/-- Witness for C8 amended: immediate 1, register 0, immediate 2. -/
theorem tables_one_to_one_ids_jointly_contiguous_witness :
    ((OperandFacts.fresh sampleOperandTypes).addAll
        [.imm (1 : Int), .reg (0 : Nat), .imm (2 : Int)]).1.allIds = [1, 3, 2] ∧
    StdMap.OneToOne ((OperandFacts.fresh sampleOperandTypes).addAll
        [.imm (1 : Int), .reg (0 : Nat), .imm (2 : Int)]).1.Imm ∧
    Contiguous ((OperandFacts.fresh sampleOperandTypes).addAll
        [.imm (1 : Int), .reg (0 : Nat), .imm (2 : Int)]).1.allIds :=
  have h := tables_one_to_one_ids_jointly_contiguous (O := sampleOperandTypes)
    [.imm (1 : Int), .reg (0 : Nat), .imm (2 : Int)] (by decide)
  ⟨by decide, h.1, h.2.2.2.2.2.2.2⟩

/-- C9 (ID density): after `n` calls of `add` on a fresh interner with `d` distinct
operands among them (`d < 2 ^ 64 - 1`), the IDs held in the six tables together are
exactly `1, ..., d`, each held once, so they lie in `1, ..., n` and 0 is not among
them; the counter is `d + 1`; the `k`-th operand in first-seen order (counting from 1)
holds ID `k`; and a call whose operand did not occur before returns one more than the
number of distinct operands of the calls before it. -/
theorem ids_dense_after_adds (ops : List (Operand O)) (hb : ops.toFinset.card + 1 < U64) :
    (∀ id, id ∈ ((OperandFacts.fresh O).addAll ops).1.allIds ↔
      1 ≤ id ∧ id ≤ ops.toFinset.card) ∧
    ((OperandFacts.fresh O).addAll ops).1.allIds.Nodup ∧
    (∀ id ∈ ((OperandFacts.fresh O).addAll ops).1.allIds, 1 ≤ id ∧ id ≤ ops.length) ∧
    ((OperandFacts.fresh O).addAll ops).1.Index = ops.toFinset.card + 1 ∧
    (firstSeen ops).length = ops.toFinset.card ∧
    (∀ k (hk : k < (firstSeen ops).length),
      ((OperandFacts.fresh O).addAll ops).1.lookup ((firstSeen ops)[k]) = some (k + 1)) ∧
    (∀ i (hi : i < ops.length), ops[i] ∉ ops.take i →
      ((OperandFacts.fresh O).addAll ops).2[i]? = some ((ops.take i).toFinset.card + 1)) ∧
    0 ∉ ((OperandFacts.fresh O).addAll ops).1.allIds ∧
    0 ∉ ((OperandFacts.fresh O).addAll ops).2 := by
  obtain ⟨⟨hI, hnd, -, hlook, hperm⟩, hids⟩ := inv_addAll_fresh ops (firstSeen_bound ops hb)
  have hlen := length_firstSeen ops
  have hmem : ∀ id, id ∈ ((OperandFacts.fresh O).addAll ops).1.allIds ↔
      1 ≤ id ∧ id ≤ ops.toFinset.card := by
    intro id
    rw [hperm.mem_iff, List.mem_range'_1, hlen]
    omega
  have hle : ops.toFinset.card ≤ ops.length := List.toFinset_card_le ops
  refine ⟨hmem, hperm.nodup_iff.2 (List.nodup_range' 1 _), ?_, ?_, hlen, ?_, ?_, ?_, ?_⟩
  · intro id hid
    have := (hmem id).1 hid
    omega
  · rw [hI, hlen]
  · intro k hk
    rw [hlook, if_pos (List.getElem_mem hk), List.indexOf_getElem hnd]
  · intro i hi hnew
    rw [hids, List.getElem?_map, List.getElem?_eq_getElem hi, Option.map_some',
      indexOf_firstSeen_of_new ops i hi hnew]
  · intro h0
    have := (hmem 0).1 h0
    omega
  · rw [hids, List.mem_map]
    rintro ⟨op, -, h0⟩
    exact Nat.succ_ne_zero _ h0

/-- Witness for C9: five calls with three distinct operands. -/
theorem ids_dense_after_adds_witness :
    ((OperandFacts.fresh sampleOperandTypes).addAll
        [.imm (42 : Int), .reg (1 : Nat), .imm (42 : Int), .imm (7 : Int), .reg (1 : Nat)]).1.allIds
      = [3, 1, 2] ∧
    ((OperandFacts.fresh sampleOperandTypes).addAll
        [.imm (42 : Int), .reg (1 : Nat), .imm (42 : Int), .imm (7 : Int), .reg (1 : Nat)]).1.Index
      = 4 ∧
    ((OperandFacts.fresh sampleOperandTypes).addAll
        [.imm (42 : Int), .reg (1 : Nat), .imm (42 : Int), .imm (7 : Int), .reg (1 : Nat)]).1.Index
      = ([.imm (42 : Int), .reg (1 : Nat), .imm (42 : Int), .imm (7 : Int), .reg (1 : Nat)] :
          List (Operand sampleOperandTypes)).toFinset.card + 1 :=
  ⟨by decide, by decide, (ids_dense_after_adds (O := sampleOperandTypes)
    [.imm (42 : Int), .reg (1 : Nat), .imm (42 : Int), .imm (7 : Int), .reg (1 : Nat)]
    (by decide)).2.2.2.1⟩

end InternerClaims

/-! ## The instruction fact collector: claim C10 -/

section CollectorClaims

variable {T : FactTypes}

/-- C10 (append-only streams): after any sequence of calls of the eight `add`-style
methods of `InstructionFacts` on a collector `F`, each stream is what it was in `F`
followed by the arguments passed to its own method, in call order and with repetitions;
calls of the other seven methods leave it unchanged. On a default-constructed collector
each accessor thus returns exactly the arguments passed to its method. -/
theorem streams_append_only (F : InstructionFacts T) (cs : List (FactCall T)) :
    (F.calls cs).Instructions = F.Instructions ++ cs.filterMap FactCall.addArg ∧
    (F.calls cs).InvalidInstructions = F.InvalidInstructions ++ cs.filterMap FactCall.invalidArg ∧
    (F.calls cs).ShiftedOps = F.ShiftedOps ++ cs.filterMap FactCall.shiftedOpArg ∧
    (F.calls cs).ShiftedWithRegOps =
      F.ShiftedWithRegOps ++ cs.filterMap FactCall.shiftedWithRegOpArg ∧
    (F.calls cs).InstructionWritebackList =
      F.InstructionWritebackList ++ cs.filterMap FactCall.writebackArg ∧
    (F.calls cs).InstructionCondCodeList =
      F.InstructionCondCodeList ++ cs.filterMap FactCall.conditionCodeArg ∧
    (F.calls cs).InstructionOpAccessList =
      F.InstructionOpAccessList ++ cs.filterMap FactCall.opAccessArg ∧
    (F.calls cs).RegisterAccesses =
      F.RegisterAccesses ++ cs.filterMap FactCall.registerAccessArg := by
  induction cs generalizing F with
  | nil => simp [InstructionFacts.calls]
  | cons c cs ih =>
    have h := ih (F.call c)
    simp only [InstructionFacts.calls, List.foldl_cons] at h ⊢
    obtain ⟨h1, h2, h3, h4, h5, h6, h7, h8⟩ := h
    rw [h1, h2, h3, h4, h5, h6, h7, h8]
    cases c <;>
      simp [InstructionFacts.call, InstructionFacts.add, InstructionFacts.invalid,
        InstructionFacts.shiftedOp, InstructionFacts.shiftedWithRegOp,
        InstructionFacts.writeback, InstructionFacts.conditionCode, InstructionFacts.opAccess,
        InstructionFacts.registerAccess, FactCall.addArg, FactCall.invalidArg,
        FactCall.shiftedOpArg, FactCall.shiftedWithRegOpArg, FactCall.writebackArg,
        FactCall.conditionCodeArg, FactCall.opAccessArg, FactCall.registerAccessArg]

end CollectorClaims

/-! ## The scans: claims C3, C4, C5, C6 -/

section ScanClaims

variable {O : OperandTypes} {T : FactTypes}

/-- C3 (exhaustive coverage and termination of the blind scan) evaluated where the code
departs from it: on a region of initialized length 3 scanned with stride 2, whatever
`decode` does, the loop has not returned after any number of iterations and has called
`decode` once per iteration, so more than `ceil(3/2) = 2` times; its third call is given
the length `2 ^ 64 - 1`, the wrapped value of `1 - 2`. -/
theorem blind_scan_stride_two_length_three
    (decode : BinaryFacts O T → BytePtr → Nat → Nat → BinaryFacts O T) (base : Nat)
    (bytes : List Nat) (F : BinaryFacts O T) :
    (∀ fuel, ((⟨2, decode⟩ : InstructionLoader O T).load fuel ⟨some base, 3, bytes⟩ F).outcome
        = .outOfFuel ∧
      ((⟨2, decode⟩ : InstructionLoader O T).load fuel ⟨some base, 3, bytes⟩ F).calls.length
        = fuel) ∧
    (((⟨2, decode⟩ : InstructionLoader O T).load 3 ⟨some base, 3, bytes⟩ F).calls.map
      DecodeCall.Size = [3, 1, 2 ^ 64 - 1]) := by
  constructor
  · intro fuel
    exact loadLoop_stride_two_odd decode fuel F ⟨bytes, 0⟩ 3 base (by decide)
  · have e1 : (3 + U64 - 2) % U64 = 1 := by norm_num [U64]
    have e2 : (1 + U64 - 2) % U64 = 2 ^ 64 - 1 := by norm_num [U64]
    have e3 : 0 < 2 ^ 64 - 1 := by norm_num
    simp only [InstructionLoader.load]
    rw [loadLoop_step _ _ _ _ _ _ (by decide), e1, loadLoop_step _ _ _ _ _ _ (by decide), e2,
      loadLoop_step _ _ _ _ _ _ e3, loadLoop_zero_calls]
    rfl

/-- C4, as stated, fails: on a module with one code block that has no address the
`assert` ends the run before any `decode` call, so there is no call for that block. -/
theorem code_block_without_address_not_decoded :
    (CodeBlockLoader.load sampleLoader ⟨[], [⟨none, sampleInterval, 0⟩], none⟩
      (BinaryFacts.fresh _ _)).calls.length = 0 ∧
    (CodeBlockLoader.load sampleLoader ⟨[], [⟨none, sampleInterval, 0⟩], none⟩
      (BinaryFacts.fresh _ _)).outcome.facts.isNone = true := by
  decide

/-- C4, amended: for every module whose code blocks all pass the three `assert`s of
`load(Block, Facts)`, `CodeBlockLoader::load` returns and has made exactly one `decode`
call per code block, in the module's code-block order; the call for a block at address
`A` passes `A`, the owning interval's bytes from the block's offset, and the length
`getInitializedSize() - getOffset()` in `uint64_t` arithmetic, which is the plain
difference whenever the offset does not exceed the initialized size. -/
theorem code_block_scan_one_call_per_block (L : InstructionLoader O T) (M : Module)
    (F : BinaryFacts O T) (h : ∀ B ∈ M.code_blocks, B.Asserted) :
    (∃ F1, (CodeBlockLoader.load L M F).outcome = .done F1) ∧
    List.Forall₂ (fun (c : DecodeCall O T) (B : CodeBlock) =>
        B.getAddress = some c.Addr ∧
        c.Bytes = ⟨B.getByteInterval.rawBytes, B.getOffset⟩ ∧
        c.Size = (B.getByteInterval.getInitializedSize + U64 - B.getOffset) % U64 ∧
        (B.getOffset ≤ B.getByteInterval.getInitializedSize →
          B.getByteInterval.getInitializedSize < U64 →
          c.Size = B.getByteInterval.getInitializedSize - B.getOffset))
      (CodeBlockLoader.load L M F).calls M.code_blocks := by
  unfold CodeBlockLoader.load
  generalize M.code_blocks = Blocks at h
  induction Blocks generalizing F with
  | nil => exact ⟨⟨F, rfl⟩, List.Forall₂.nil⟩
  | cons B Blocks ih =>
    obtain ⟨c, hc, -, h1, h2, h3⟩ := loadBlock_of_asserted L B F (h B (List.mem_cons_self _ _))
    obtain ⟨⟨F1, hF1⟩, hall⟩ := ih (L.decode F c.Bytes c.Size c.Addr)
      (fun B' hB' => h B' (List.mem_cons_of_mem _ hB'))
    simp only [CodeBlockLoader.loadBlocks, hc, List.singleton_append]
    refine ⟨⟨F1, hF1⟩, List.Forall₂.cons ⟨h1, h2, h3, ?_⟩ hall⟩
    intro hle hlt
    rw [h3]
    have : B.getByteInterval.getInitializedSize + U64 - B.getOffset =
        (B.getByteInterval.getInitializedSize - B.getOffset) + U64 := by omega
    rw [this, Nat.add_mod_right]
    exact Nat.mod_eq_of_lt (lt_of_le_of_lt (Nat.sub_le _ _) hlt)

/-- Witness for C4 amended: the two code blocks of the sample module, at offsets 0 and 2
of the sample region. -/
theorem code_block_scan_one_call_per_block_witness :
    (∀ B ∈ sampleModule.code_blocks, B.Asserted) ∧
    (CodeBlockLoader.load sampleLoader sampleModule (BinaryFacts.fresh _ _)).calls.map
      (fun c => (c.Addr, c.Bytes.offset, c.Size)) = [(0x1000, 0, 4), (0x1002, 2, 2)] ∧
    ((∃ F1, (CodeBlockLoader.load sampleLoader sampleModule (BinaryFacts.fresh _ _)).outcome
      = .done F1) ∧
    List.Forall₂ (fun (c : DecodeCall sampleOperandTypes sampleFactTypes) (B : CodeBlock) =>
        B.getAddress = some c.Addr ∧
        c.Bytes = ⟨B.getByteInterval.rawBytes, B.getOffset⟩ ∧
        c.Size = (B.getByteInterval.getInitializedSize + U64 - B.getOffset) % U64 ∧
        (B.getOffset ≤ B.getByteInterval.getInitializedSize →
          B.getByteInterval.getInitializedSize < U64 →
          c.Size = B.getByteInterval.getInitializedSize - B.getOffset))
      (CodeBlockLoader.load sampleLoader sampleModule (BinaryFacts.fresh _ _)).calls
      sampleModule.code_blocks) :=
  have hA : ∀ B ∈ sampleModule.code_blocks, B.Asserted := by
    intro B hB
    simp only [sampleModule, List.mem_cons, List.mem_singleton, List.not_mem_nil,
      or_false] at hB
    rcases hB with rfl | rfl
    · exact ⟨0x1000, 0x1000, rfl, rfl, by decide⟩
    · exact ⟨0x1002, 0x1000, rfl, rfl, by decide⟩
  ⟨hA, by decide, code_block_scan_one_call_per_block sampleLoader sampleModule _ hA⟩

/-- C5 (failure isolation): let the decode hook follow the hook contract and let the
blind scan of one region, started on an empty fact set, return. Then every address at
which a decode attempt failed has exactly one entry in the invalid-address stream and no
instruction record, and decode was attempted at every stride position `base + k * S`
inside the region, in order, whichever attempts failed. When the stride is positive and
divides the initialized length, the scan does return, after `length / S` iterations. -/
theorem blind_scan_failure_isolation (L : InstructionLoader O T)
    (hc : FollowsContract L.decode) (hS : L.InstructionSize < 256) (BI : ByteInterval)
    (base : Nat) (hbase : BI.getAddress = some base) (hb : base < U64)
    (hsz : BI.getInitializedSize < U64) :
    (∀ fuel F1, (L.load fuel BI (BinaryFacts.fresh O T)).outcome = .done F1 →
      (∀ c ∈ (L.load fuel BI (BinaryFacts.fresh O T)).calls, c.Failed L →
        F1.Instructions.InvalidInstructions.count c.Addr = 1 ∧
        ∀ I ∈ F1.Instructions.Instructions, T.address I ≠ c.Addr) ∧
      (∀ k, k * L.InstructionSize < BI.getInitializedSize →
        ∃ c, (L.load fuel BI (BinaryFacts.fresh O T)).calls[k]? = some c ∧
          c.Addr = (base + k * L.InstructionSize) % U64)) ∧
    (0 < L.InstructionSize → L.InstructionSize ∣ BI.getInitializedSize →
      ∃ F1, (L.load (BI.getInitializedSize / L.InstructionSize) BI
        (BinaryFacts.fresh O T)).outcome = .done F1) := by
  have hS' : L.InstructionSize ≤ U64 := by
    rw [U64_eq]
    omega
  simp only [InstructionLoader.load, hbase]
  refine ⟨?_, ?_⟩
  · intro fuel F1 hd
    have hnd := loadLoop_addrs_nodup L hS' fuel _ _ _ _ hsz hb F1 hd
    obtain ⟨-, f2, f3, f4⟩ := loadLoop_facts L hc fuel _ _ _ _ F1 hd
    refine ⟨?_, ?_⟩
    · intro c hcm hfail
      have hmem : c.Addr ∈ F1.Instructions.InvalidInstructions := f3 c hcm hfail
      have hle := f2 c.Addr
      have hone : List.count c.Addr ((L.loadLoop fuel (BinaryFacts.fresh O T)
          ⟨BI.rawBytes, 0⟩ BI.getInitializedSize base).calls.map DecodeCall.Addr) ≤ 1 :=
        List.nodup_iff_count_le_one.1 hnd c.Addr
      have hpos : 0 < F1.Instructions.InvalidInstructions.count c.Addr :=
        List.count_pos_iff.2 hmem
      have hzero : List.count c.Addr
          (BinaryFacts.fresh O T).Instructions.InvalidInstructions = 0 := by
        simp [BinaryFacts.fresh, InstructionFacts.fresh]
      refine ⟨by omega, ?_⟩
      intro I hI haddr
      rcases f4 I hI with h | ⟨c', hcm', h1, h2⟩
      · simp [BinaryFacts.fresh, InstructionFacts.fresh] at h
      · have heq : c' = c :=
          List.inj_on_of_nodup_map hnd hcm' hcm (h1.trans haddr)
        exact h2 (heq ▸ hfail)
    · intro k hk
      exact loadLoop_covers L hS' fuel _ _ _ _ hsz hb F1 hd k hk
  · intro hpos hdvd
    exact (loadLoop_terminates L hpos _ _ _ _ _ hsz (Nat.div_mul_cancel hdvd).symm).1

/-- Witness for C5: the sample hook on the sample region; decode fails at `0x1001`,
`0x1002` and `0x1003`, each of which ends up with one invalid entry. -/
theorem blind_scan_failure_isolation_witness :
    (sampleLoader.load 4 sampleInterval (BinaryFacts.fresh _ _)).streams =
      some ([(⟨0x1000, "I1", [1, 2], 2⟩ : InstructionRecord)], [0x1001, 0x1002, 0x1003]) ∧
    ((∀ fuel F1, (sampleLoader.load fuel sampleInterval (BinaryFacts.fresh _ _)).outcome
        = .done F1 →
      (∀ c ∈ (sampleLoader.load fuel sampleInterval (BinaryFacts.fresh _ _)).calls,
        c.Failed sampleLoader →
        F1.Instructions.InvalidInstructions.count c.Addr = 1 ∧
        ∀ I ∈ F1.Instructions.Instructions, sampleFactTypes.address I ≠ c.Addr) ∧
      (∀ k, k * sampleLoader.InstructionSize < sampleInterval.getInitializedSize →
        ∃ c, (sampleLoader.load fuel sampleInterval (BinaryFacts.fresh _ _)).calls[k]? = some c ∧
          c.Addr = (0x1000 + k * sampleLoader.InstructionSize) % U64)) ∧
    (0 < sampleLoader.InstructionSize →
      sampleLoader.InstructionSize ∣ sampleInterval.getInitializedSize →
      ∃ F1, (sampleLoader.load
        (sampleInterval.getInitializedSize / sampleLoader.InstructionSize) sampleInterval
        (BinaryFacts.fresh _ _)).outcome = .done F1)) :=
  ⟨by decide, blind_scan_failure_isolation sampleLoader sampleDecode_follows_contract
    (by decide) sampleInterval 0x1000 rfl (by decide) (by decide)⟩

/-- C6, as stated, fails: the sample hook follows the contract, decodes `I1` (two
operands, size 2) at offset 0 of the region at `0x1000` and fails at offsets 2 and 3, yet
the facts collected by the stride-1 scan hold a fourth entry, for the attempt at `0x1001`:
the invalid addresses are `0x1001`, `0x1002`, `0x1003`, not just `0x1002` and `0x1003`. -/
theorem scenario_facts_include_offset_one :
    FollowsContract sampleDecode ∧
    (sampleLoader.load 4 sampleInterval (BinaryFacts.fresh _ _)).calls.map
      (fun c => (c.Addr, c.Bytes.offset, c.Size)) =
      [(0x1000, 0, 4), (0x1001, 1, 3), (0x1002, 2, 2), (0x1003, 3, 1)] ∧
    (sampleLoader.load 4 sampleInterval (BinaryFacts.fresh _ _)).streams =
      some ([(⟨0x1000, "I1", [1, 2], 2⟩ : InstructionRecord)], [0x1001, 0x1002, 0x1003]) ∧
    (sampleLoader.load 4 sampleInterval (BinaryFacts.fresh _ _)).streams ≠
      some ([(⟨0x1000, "I1", [1, 2], 2⟩ : InstructionRecord)], [0x1002, 0x1003]) :=
  ⟨sampleDecode_follows_contract, by decide, by decide, by decide⟩

/-- C6, amended: for the 4-byte region at `0x1000` scanned with stride 1 by a
contract-following hook that decodes `I1` at offset 0 and fails at offsets 2 and 3, the
scan returns after four decode attempts, at `0x1000`, `0x1001`, `0x1002`, `0x1003`, and
the facts collected are the record of `I1`, the invalid addresses `0x1002` and `0x1003`,
and exactly one more entry, for the attempt at `0x1001`: either the invalid address
`0x1001` or an instruction record at `0x1001`. -/
theorem scenario_facts (decode : BinaryFacts O T → BytePtr → Nat → Nat → BinaryFacts O T)
    (hc : FollowsContract decode) (bytes : List Nat) (I1 : T.Instruction)
    (h0 : (decode (BinaryFacts.fresh O T) ⟨bytes, 0⟩ 4 0x1000).Instructions.Instructions = [I1] ∧
      (decode (BinaryFacts.fresh O T) ⟨bytes, 0⟩ 4 0x1000).Instructions.InvalidInstructions = [])
    (h2 : ∀ F, FailedAt F (decode F ⟨bytes, 2⟩ 2 0x1002) 0x1002)
    (h3 : ∀ F, FailedAt F (decode F ⟨bytes, 3⟩ 1 0x1003) 0x1003) :
    ((⟨1, decode⟩ : InstructionLoader O T).load 4 ⟨some 0x1000, 4, bytes⟩
        (BinaryFacts.fresh O T)).calls.map DecodeCall.Addr
      = [0x1000, 0x1001, 0x1002, 0x1003] ∧
    (((⟨1, decode⟩ : InstructionLoader O T).load 4 ⟨some 0x1000, 4, bytes⟩
        (BinaryFacts.fresh O T)).streams = some ([I1], [0x1001, 0x1002, 0x1003]) ∨
      ∃ J, T.address J = 0x1001 ∧
        ((⟨1, decode⟩ : InstructionLoader O T).load 4 ⟨some 0x1000, 4, bytes⟩
          (BinaryFacts.fresh O T)).streams = some ([I1, J], [0x1002, 0x1003])) := by
  have e3 : (4 + U64 - 1) % U64 = 3 := by norm_num [U64]
  have e2 : (3 + U64 - 1) % U64 = 2 := by norm_num [U64]
  have e1 : (2 + U64 - 1) % U64 = 1 := by norm_num [U64]
  have e0 : (1 + U64 - 1) % U64 = 0 := by norm_num [U64]
  have a1 : (0x1000 + 1) % U64 = 0x1001 := by norm_num [U64]
  have a2 : (0x1001 + 1) % U64 = 0x1002 := by norm_num [U64]
  have a3 : (0x1002 + 1) % U64 = 0x1003 := by norm_num [U64]
  simp only [InstructionLoader.load]
  rw [loadLoop_step _ _ _ _ _ _ (by decide), e3, a1, loadLoop_step _ _ _ _ _ _ (by decide), e2,
    a2, loadLoop_step _ _ _ _ _ _ (by decide), e1, a3, loadLoop_step _ _ _ _ _ _ (by decide), e0,
    loadLoop_size_zero]
  simp only [List.map_cons, List.map_nil, Scan.streams, Outcome.facts, Option.map_some',
    true_and, Nat.zero_add, Nat.reduceAdd]
  obtain ⟨p1, p2⟩ := h0
  rcases hc (decode (BinaryFacts.fresh O T) ⟨bytes, 0⟩ 4 0x1000) ⟨bytes, 1⟩ 3 0x1001 with
    hf | ⟨J, j0, j1, j2⟩
  · obtain ⟨f1, f2⟩ := hf
    obtain ⟨g1, g2⟩ := h2 (decode (decode (BinaryFacts.fresh O T) ⟨bytes, 0⟩ 4 0x1000)
      ⟨bytes, 1⟩ 3 0x1001)
    obtain ⟨k1, k2⟩ := h3 (decode (decode (decode (BinaryFacts.fresh O T) ⟨bytes, 0⟩ 4 0x1000)
      ⟨bytes, 1⟩ 3 0x1001) ⟨bytes, 2⟩ 2 0x1002)
    left
    rw [k1, k2, g1, g2, f1, f2, p1, p2]
    rfl
  · obtain ⟨g1, g2⟩ := h2 (decode (decode (BinaryFacts.fresh O T) ⟨bytes, 0⟩ 4 0x1000)
      ⟨bytes, 1⟩ 3 0x1001)
    obtain ⟨k1, k2⟩ := h3 (decode (decode (decode (BinaryFacts.fresh O T) ⟨bytes, 0⟩ 4 0x1000)
      ⟨bytes, 1⟩ 3 0x1001) ⟨bytes, 2⟩ 2 0x1002)
    right
    refine ⟨J, j0, ?_⟩
    rw [k1, k2, g1, g2, j1, j2, p1, p2]
    rfl

/-- Witness for C6 amended: the sample hook on the sample region. -/
theorem scenario_facts_witness :
    (sampleLoader.load 4 sampleInterval (BinaryFacts.fresh _ _)).streams =
      some ([(⟨0x1000, "I1", [1, 2], 2⟩ : InstructionRecord)], [0x1001, 0x1002, 0x1003]) ∧
    (((⟨1, sampleDecode⟩ : InstructionLoader sampleOperandTypes sampleFactTypes).load 4
        ⟨some 0x1000, 4, [0x01, 0x02, 0xFF, 0xFF]⟩
        (BinaryFacts.fresh sampleOperandTypes sampleFactTypes)).calls.map DecodeCall.Addr
      = [0x1000, 0x1001, 0x1002, 0x1003] ∧
    (((⟨1, sampleDecode⟩ : InstructionLoader sampleOperandTypes sampleFactTypes).load 4
        ⟨some 0x1000, 4, [0x01, 0x02, 0xFF, 0xFF]⟩
        (BinaryFacts.fresh sampleOperandTypes sampleFactTypes)).streams
        = some ([(⟨0x1000, "I1", [1, 2], 2⟩ : InstructionRecord)], [0x1001, 0x1002, 0x1003]) ∨
      ∃ J, sampleFactTypes.address J = 0x1001 ∧
        ((⟨1, sampleDecode⟩ : InstructionLoader sampleOperandTypes sampleFactTypes).load 4
          ⟨some 0x1000, 4, [0x01, 0x02, 0xFF, 0xFF]⟩
          (BinaryFacts.fresh sampleOperandTypes sampleFactTypes)).streams
          = some ([(⟨0x1000, "I1", [1, 2], 2⟩ : InstructionRecord), J], [0x1002, 0x1003]))) :=
  ⟨by decide, scenario_facts sampleDecode sampleDecode_follows_contract [0x01, 0x02, 0xFF, 0xFF]
    (⟨0x1000, "I1", [1, 2], 2⟩ : InstructionRecord) (by decide)
    (fun _ => ⟨rfl, rfl⟩) (fun _ => ⟨rfl, rfl⟩)⟩

end ScanClaims

/-! ## Lemmas on the cursor of the blind scan -/

section CursorLemmas

variable {O : OperandTypes} {T : FactTypes}

/-- The cursors of the loop and the way it ends do not depend on the decode hook or on
the fact set. -/
theorem loadLoop_cursor_indep (S : Nat)
    (decode1 decode2 : BinaryFacts O T → BytePtr → Nat → Nat → BinaryFacts O T) (fuel : Nat)
    (F1 F2 : BinaryFacts O T) (D : BytePtr) (Sz A : Nat) :
    ((⟨S, decode1⟩ : InstructionLoader O T).loadLoop fuel F1 D Sz A).calls.map DecodeCall.cursor =
      ((⟨S, decode2⟩ : InstructionLoader O T).loadLoop fuel F2 D Sz A).calls.map
        DecodeCall.cursor ∧
    ((⟨S, decode1⟩ : InstructionLoader O T).loadLoop fuel F1 D Sz A).outcome.ended =
      ((⟨S, decode2⟩ : InstructionLoader O T).loadLoop fuel F2 D Sz A).outcome.ended := by
  induction fuel generalizing F1 F2 D Sz A with
  | zero =>
    unfold InstructionLoader.loadLoop
    split <;> exact ⟨rfl, rfl⟩
  | succ fuel ih =>
    unfold InstructionLoader.loadLoop
    by_cases hpos : Sz > 0
    · simp only [if_pos hpos, List.map_cons]
      obtain ⟨h1, h2⟩ := ih (decode1 F1 D Sz A) (decode2 F2 D Sz A) ⟨D.buffer, D.offset + S⟩
        ((Sz + U64 - S) % U64) ((A + S) % U64)
      exact ⟨by rw [h1]; rfl, h2⟩
    · simp only [if_neg hpos]
      exact ⟨trivial, rfl⟩

/-- The cursors of the scan of one interval do not depend on the fact set it starts
from. -/
theorem load_cursor_indep (L : InstructionLoader O T) (fuel : Nat) (BI : ByteInterval)
    (F1 F2 : BinaryFacts O T) :
    (L.load fuel BI F1).calls.map DecodeCall.cursor =
      (L.load fuel BI F2).calls.map DecodeCall.cursor ∧
    (L.load fuel BI F1).outcome.ended = (L.load fuel BI F2).outcome.ended := by
  unfold InstructionLoader.load
  cases BI.getAddress with
  | none => exact ⟨rfl, rfl⟩
  | some a => exact loadLoop_cursor_indep L.InstructionSize L.decode L.decode fuel F1 F2 _ _ a

/-- The `k`-th call of the loop gets the length and the data pointer after `k`
iterations, and its length is positive. -/
theorem loadLoop_call_size (L : InstructionLoader O T) (hS : L.InstructionSize ≤ U64)
    (fuel : Nat) (F : BinaryFacts O T) (D : BytePtr) (Sz A : Nat) (hSz : Sz < U64)
    (k : Nat) (c : DecodeCall O T) (hc : (L.loadLoop fuel F D Sz A).calls[k]? = some c) :
    c.Size = sizeAfter L.InstructionSize Sz k ∧
      c.Bytes = ⟨D.buffer, D.offset + k * L.InstructionSize⟩ ∧ 0 < c.Size := by
  induction fuel generalizing F D Sz A k with
  | zero =>
    unfold InstructionLoader.loadLoop at hc
    split at hc <;> simp at hc
  | succ fuel ih =>
    unfold InstructionLoader.loadLoop at hc
    by_cases hpos : Sz > 0
    · simp only [if_pos hpos] at hc
      cases k with
      | zero =>
        simp only [List.getElem?_cons_zero, Option.some.injEq] at hc
        subst hc
        simp [sizeAfter_zero _ _ hSz, hpos]
      | succ k =>
        simp only [List.getElem?_cons_succ] at hc
        obtain ⟨h2, h3, h4⟩ := ih _ _ _ _ (Nat.mod_lt _ U64_pos) k hc
        refine ⟨?_, ?_, h4⟩
        · rw [h2, sizeAfter_succ _ _ _ hS]
        · rw [h3]
          simp only [BytePtr.mk.injEq, true_and]
          ring
    · simp only [if_neg hpos] at hc
      simp at hc

/-- When the stride divides `2 ^ 64`, a length that reaches zero is a multiple of the
stride. -/
theorem dvd_of_sizeAfter_eq_zero (S Sz n : Nat) (hS : S ∣ U64) (h : sizeAfter S Sz n = 0) :
    S ∣ Sz := by
  unfold sizeAfter at h
  have h1 : U64 ∣ Sz + n * (U64 - S) := Nat.dvd_of_mod_eq_zero h
  have h2 : S ∣ Sz + n * (U64 - S) := Dvd.dvd.trans hS h1
  have h3 : S ∣ n * (U64 - S) := Dvd.dvd.mul_left (Nat.dvd_sub' hS (dvd_refl S)) n
  exact (Nat.dvd_add_left h3).1 h2

theorem stride_dvd_U64 (S : Nat) (hS : S ∈ strides) (h0 : S ≠ 0) : S ∣ U64 := by
  rw [U64_eq]
  simp only [strides, List.mem_cons, List.mem_singleton, List.not_mem_nil, or_false] at hS
  rcases hS with rfl | rfl | rfl | rfl | rfl | rfl | rfl | rfl | rfl
  · exact absurd rfl h0
  all_goals exact Nat.dvd_of_mod_eq_zero (by norm_num)

/-- A loop that returns on a length the positive stride divides has run
`Size / InstructionSize` iterations. -/
theorem loadLoop_done_count (L : InstructionLoader O T) (hS : L.InstructionSize ≤ U64)
    (hpos : 0 < L.InstructionSize) (fuel : Nat) (F : BinaryFacts O T) (D : BytePtr)
    (Sz A : Nat) (hSz : Sz < U64) (hdvd : L.InstructionSize ∣ Sz) (F1 : BinaryFacts O T)
    (hd : (L.loadLoop fuel F D Sz A).outcome = .done F1) :
    (L.loadLoop fuel F D Sz A).calls.length = Sz / L.InstructionSize := by
  have hz := loadLoop_done_size L hS fuel F D Sz A hSz F1 hd
  have hmul : Sz / L.InstructionSize * L.InstructionSize = Sz := Nat.div_mul_cancel hdvd
  rcases lt_trichotomy (L.loadLoop fuel F D Sz A).calls.length (Sz / L.InstructionSize)
    with hlt | heq | hgt
  · have hle : (L.loadLoop fuel F D Sz A).calls.length * L.InstructionSize ≤ Sz :=
      le_trans (Nat.mul_le_mul_right _ (le_of_lt hlt)) (le_of_eq hmul)
    rw [sizeAfter_of_le _ _ _ hS hSz hle] at hz
    have : (L.loadLoop fuel F D Sz A).calls.length * L.InstructionSize <
        Sz / L.InstructionSize * L.InstructionSize := Nat.mul_lt_mul_of_pos_right hlt hpos
    omega
  · exact heq
  · obtain ⟨h1, -, h3⟩ := loadLoop_call_size L hS fuel F D Sz A hSz _ _
      (List.getElem?_eq_getElem hgt)
    rw [h1, sizeAfter_of_le _ _ _ hS hSz (le_of_eq hmul), hmul, Nat.sub_self] at h3
    exact absurd h3 (lt_irrefl 0)

theorem stride_le (S : Nat) (hS : S ∈ strides) : S ≤ 128 := by
  simp only [strides, List.mem_cons, List.mem_singleton, List.not_mem_nil, or_false] at hS
  omega

/-- The loop never ends on a failed `assert`: it has returned or is still running. -/
theorem loadLoop_outcome_cases (L : InstructionLoader O T) (fuel : Nat) (F : BinaryFacts O T)
    (D : BytePtr) (Sz A : Nat) :
    (L.loadLoop fuel F D Sz A).outcome = .outOfFuel ∨
      ∃ F1, (L.loadLoop fuel F D Sz A).outcome = .done F1 := by
  induction fuel generalizing F D Sz A with
  | zero =>
    unfold InstructionLoader.loadLoop
    split
    · exact Or.inl rfl
    · exact Or.inr ⟨F, rfl⟩
  | succ fuel ih =>
    unfold InstructionLoader.loadLoop
    split
    · exact ih _ _ _ _
    · exact Or.inr ⟨F, rfl⟩

end CursorLemmas

/-! ## The cursor of the scans: claims C14, C16, C17, C18 -/

section CursorClaims

variable {O : OperandTypes} {T : FactTypes}

/-- C14 (the cursor does not depend on decoding): for every region, stride and step
budget, the blind scans run with any two decode hooks, from any two fact sets, pass the
same sequence of (address, remaining length) pairs, indeed the same addresses, data
pointers and lengths, to `decode`, and end the same way. -/
theorem blind_scan_cursor_independent_of_decode (S : Nat)
    (decode1 decode2 : BinaryFacts O T → BytePtr → Nat → Nat → BinaryFacts O T) (fuel : Nat)
    (BI : ByteInterval) (F1 F2 : BinaryFacts O T) :
    ((⟨S, decode1⟩ : InstructionLoader O T).load fuel BI F1).calls.map
        (fun c => (c.Addr, c.Size)) =
      ((⟨S, decode2⟩ : InstructionLoader O T).load fuel BI F2).calls.map
        (fun c => (c.Addr, c.Size)) ∧
    ((⟨S, decode1⟩ : InstructionLoader O T).load fuel BI F1).calls.map DecodeCall.cursor =
      ((⟨S, decode2⟩ : InstructionLoader O T).load fuel BI F2).calls.map DecodeCall.cursor ∧
    ((⟨S, decode1⟩ : InstructionLoader O T).load fuel BI F1).outcome.ended =
      ((⟨S, decode2⟩ : InstructionLoader O T).load fuel BI F2).outcome.ended := by
  have key : ((⟨S, decode1⟩ : InstructionLoader O T).load fuel BI F1).calls.map
        DecodeCall.cursor =
      ((⟨S, decode2⟩ : InstructionLoader O T).load fuel BI F2).calls.map DecodeCall.cursor ∧
      ((⟨S, decode1⟩ : InstructionLoader O T).load fuel BI F1).outcome.ended =
      ((⟨S, decode2⟩ : InstructionLoader O T).load fuel BI F2).outcome.ended := by
    unfold InstructionLoader.load
    cases BI.getAddress with
    | none => exact ⟨rfl, rfl⟩
    | some a => exact loadLoop_cursor_indep S decode1 decode2 fuel F1 F2 _ _ a
  refine ⟨?_, key.1, key.2⟩
  have h := congrArg (List.map (fun t : Nat × BytePtr × Nat => (t.1, t.2.2))) key.1
  simpa [List.map_map, Function.comp_def, DecodeCall.cursor] using h

/-- C16 (termination of the blind-scan loop): for a region length `0 < L < 2 ^ 64` and a
stride `S` among 0, 1, 2, 4, ..., 128, the loop, whose `uint64_t` length is decreased by
`S` modulo `2 ^ 64` and tested with `Size > 0`, returns for some step budget if and only
if `S` is not 0 and divides `L`; when it returns it has run exactly `L / S` iterations;
and otherwise it is still running after any number of iterations. -/
theorem blind_scan_terminates_iff_stride_divides
    (decode : BinaryFacts O T → BytePtr → Nat → Nat → BinaryFacts O T) (S Sz : Nat)
    (hS : S ∈ strides) (hpos : 0 < Sz) (hSz : Sz < U64) (F : BinaryFacts O T) (A : Nat)
    (bytes : List Nat) :
    ((∃ fuel F1, ((⟨S, decode⟩ : InstructionLoader O T).load fuel ⟨some A, Sz, bytes⟩ F).outcome
        = .done F1) ↔ (S ≠ 0 ∧ S ∣ Sz)) ∧
    (∀ fuel F1, ((⟨S, decode⟩ : InstructionLoader O T).load fuel ⟨some A, Sz, bytes⟩ F).outcome
        = .done F1 →
      ((⟨S, decode⟩ : InstructionLoader O T).load fuel ⟨some A, Sz, bytes⟩ F).calls.length
        = Sz / S) ∧
    (¬ (S ≠ 0 ∧ S ∣ Sz) → ∀ fuel,
      ((⟨S, decode⟩ : InstructionLoader O T).load fuel ⟨some A, Sz, bytes⟩ F).outcome
        = .outOfFuel) := by
  have hle : S ≤ U64 := by
    have := stride_le S hS
    rw [U64_eq]
    omega
  have hfwd : ∀ fuel F1,
      ((⟨S, decode⟩ : InstructionLoader O T).load fuel ⟨some A, Sz, bytes⟩ F).outcome = .done F1 →
      S ≠ 0 ∧ S ∣ Sz := by
    intro fuel F1 hd
    simp only [InstructionLoader.load] at hd
    have hz := loadLoop_done_size (⟨S, decode⟩ : InstructionLoader O T) hle fuel F _ Sz A hSz F1 hd
    simp only at hz
    have h0 : S ≠ 0 := by
      rintro rfl
      unfold sizeAfter at hz
      rw [Nat.sub_zero, Nat.add_mul_mod_self_right, Nat.mod_eq_of_lt hSz] at hz
      omega
    exact ⟨h0, dvd_of_sizeAfter_eq_zero S Sz _ (stride_dvd_U64 S hS h0) hz⟩
  refine ⟨⟨?_, ?_⟩, ?_, ?_⟩
  · rintro ⟨fuel, F1, hd⟩
    exact hfwd fuel F1 hd
  · rintro ⟨h0, hdvd⟩
    obtain ⟨⟨F1, h1⟩, -⟩ := loadLoop_terminates (⟨S, decode⟩ : InstructionLoader O T)
      (Nat.pos_of_ne_zero h0) (Sz / S) F ⟨bytes, 0⟩ Sz A hSz (Nat.div_mul_cancel hdvd).symm
    exact ⟨Sz / S, F1, h1⟩
  · intro fuel F1 hd
    obtain ⟨h0, hdvd⟩ := hfwd fuel F1 hd
    simp only [InstructionLoader.load] at hd ⊢
    exact loadLoop_done_count (⟨S, decode⟩ : InstructionLoader O T) hle (Nat.pos_of_ne_zero h0)
      fuel F _ Sz A hSz hdvd F1 hd
  · intro hn fuel
    rcases loadLoop_outcome_cases (⟨S, decode⟩ : InstructionLoader O T) fuel F ⟨bytes, 0⟩ Sz A
      with h | ⟨F1, h⟩
    · exact h
    · exact absurd (hfwd fuel F1 h) hn

/-- Witness for C16: length 8 with stride 4 returns after two iterations. -/
theorem blind_scan_terminates_iff_stride_divides_witness :
    ((∃ fuel F1, ((⟨4, sampleDecode⟩ : InstructionLoader sampleOperandTypes sampleFactTypes).load
        fuel ⟨some 0x1000, 8, []⟩ (BinaryFacts.fresh _ _)).outcome = .done F1) ↔
      ((4 : Nat) ≠ 0 ∧ 4 ∣ 8)) ∧
    (∀ fuel F1, ((⟨4, sampleDecode⟩ : InstructionLoader sampleOperandTypes sampleFactTypes).load
        fuel ⟨some 0x1000, 8, []⟩ (BinaryFacts.fresh _ _)).outcome = .done F1 →
      ((⟨4, sampleDecode⟩ : InstructionLoader sampleOperandTypes sampleFactTypes).load
        fuel ⟨some 0x1000, 8, []⟩ (BinaryFacts.fresh _ _)).calls.length = 8 / 4) ∧
    (¬ ((4 : Nat) ≠ 0 ∧ 4 ∣ 8) → ∀ fuel,
      ((⟨4, sampleDecode⟩ : InstructionLoader sampleOperandTypes sampleFactTypes).load
        fuel ⟨some 0x1000, 8, []⟩ (BinaryFacts.fresh _ _)).outcome = .outOfFuel) :=
  blind_scan_terminates_iff_stride_divides sampleDecode 4 8 (by decide) (by decide) (by decide)
    (BinaryFacts.fresh _ _) 0x1000 []

/-- C17 (the length passed never exceeds what the region still holds): for a region of
initialized length `L < 2 ^ 64` and a stride `S ≥ 1` that divides `L`, the blind scan
returns after `L / S` decode calls, and its `i`-th call (`i = 0, ..., L / S - 1`) is given
the data pointer at offset `i * S` of the region's bytes and the length `L - i * S`; so
offset plus length is `L`, and the length is at least `S`. -/
theorem blind_scan_length_within_region (L : InstructionLoader O T) (BI : ByteInterval)
    (base : Nat) (hbase : BI.getAddress = some base) (hpos : 1 ≤ L.InstructionSize)
    (hdvd : L.InstructionSize ∣ BI.getInitializedSize) (hsz : BI.getInitializedSize < U64)
    (F : BinaryFacts O T) :
    (∃ F1, (L.load (BI.getInitializedSize / L.InstructionSize) BI F).outcome = .done F1) ∧
    (L.load (BI.getInitializedSize / L.InstructionSize) BI F).calls.length =
      BI.getInitializedSize / L.InstructionSize ∧
    (∀ i c, (L.load (BI.getInitializedSize / L.InstructionSize) BI F).calls[i]? = some c →
      c.Bytes = ⟨BI.rawBytes, i * L.InstructionSize⟩ ∧
      c.Size = BI.getInitializedSize - i * L.InstructionSize ∧
      c.Bytes.offset + c.Size = BI.getInitializedSize ∧
      L.InstructionSize ≤ c.Size) := by
  simp only [InstructionLoader.load, hbase]
  have hmul : BI.getInitializedSize / L.InstructionSize * L.InstructionSize =
      BI.getInitializedSize := Nat.div_mul_cancel hdvd
  obtain ⟨hdone, hlen⟩ := loadLoop_terminates L hpos (BI.getInitializedSize / L.InstructionSize)
    F ⟨BI.rawBytes, 0⟩ BI.getInitializedSize base hsz hmul.symm
  refine ⟨hdone, hlen, ?_⟩
  intro i c hc
  have hi : i < BI.getInitializedSize / L.InstructionSize := by
    have := (List.getElem?_eq_some.1 hc).1
    rwa [hlen] at this
  have hstep : (i + 1) * L.InstructionSize ≤ BI.getInitializedSize :=
    le_trans (Nat.mul_le_mul_right _ hi) (le_of_eq hmul)
  rw [Nat.succ_mul] at hstep
  have hS : L.InstructionSize ≤ U64 := by omega
  obtain ⟨h1, h2, -⟩ := loadLoop_call_size L hS _ F ⟨BI.rawBytes, 0⟩ BI.getInitializedSize base
    hsz i c hc
  rw [sizeAfter_of_le _ _ _ hS hsz (by omega)] at h1
  simp only [Nat.zero_add] at h2
  refine ⟨h2, h1, ?_, ?_⟩
  · rw [h2, h1]
    simp only
    omega
  · rw [h1]
    omega

/-- Witness for C17: the sample region, length 4, with stride 1. -/
theorem blind_scan_length_within_region_witness :
    (sampleLoader.load 4 sampleInterval (BinaryFacts.fresh _ _)).calls.map
      (fun c => (c.Bytes.offset, c.Size)) = [(0, 4), (1, 3), (2, 2), (3, 1)] ∧
    ((∃ F1, (sampleLoader.load (sampleInterval.getInitializedSize / sampleLoader.InstructionSize)
      sampleInterval (BinaryFacts.fresh _ _)).outcome = .done F1) ∧
    (sampleLoader.load (sampleInterval.getInitializedSize / sampleLoader.InstructionSize)
      sampleInterval (BinaryFacts.fresh _ _)).calls.length =
      sampleInterval.getInitializedSize / sampleLoader.InstructionSize ∧
    (∀ i c, (sampleLoader.load
        (sampleInterval.getInitializedSize / sampleLoader.InstructionSize)
        sampleInterval (BinaryFacts.fresh _ _)).calls[i]? = some c →
      c.Bytes = ⟨sampleInterval.rawBytes, i * sampleLoader.InstructionSize⟩ ∧
      c.Size = sampleInterval.getInitializedSize - i * sampleLoader.InstructionSize ∧
      c.Bytes.offset + c.Size = sampleInterval.getInitializedSize ∧
      sampleLoader.InstructionSize ≤ c.Size)) :=
  ⟨by decide, blind_scan_length_within_region sampleLoader sampleInterval 0x1000 rfl
    (by decide) (by decide) (by decide) (BinaryFacts.fresh _ _)⟩

/-- C18 (no wrap-around in the code-block length): in `CodeBlockLoader::load(Block,
Facts)`, when the block has an address, its byte interval has an address, the block
address is below interval address plus initialized size (the three `assert`s), and the
block address is the interval address plus the block's offset, then the offset is below
the initialized size, so `getInitializedSize() - getOffset()` does not wrap around, and
the one `decode` call is given that difference, which is at least 1. -/
theorem code_block_length_no_wrap (L : InstructionLoader O T) (Block : CodeBlock)
    (Facts : BinaryFacts O T) (Addr BaseAddr : Nat) (h1 : Block.getAddress = some Addr)
    (h2 : Block.getByteInterval.getAddress = some BaseAddr)
    (h3 : Addr < (BaseAddr + Block.getByteInterval.getInitializedSize) % U64)
    (h4 : Addr = BaseAddr + Block.getOffset)
    (hsz : Block.getByteInterval.getInitializedSize < U64) :
    Block.getOffset < Block.getByteInterval.getInitializedSize ∧
    (Block.getByteInterval.getInitializedSize + U64 - Block.getOffset) % U64 =
      Block.getByteInterval.getInitializedSize - Block.getOffset ∧
    (∃ c, CodeBlockLoader.loadBlock L Block Facts =
        ⟨[c], .done (L.decode Facts c.Bytes c.Size c.Addr)⟩ ∧ c.Addr = Addr ∧
      c.Bytes = ⟨Block.getByteInterval.rawBytes, Block.getOffset⟩ ∧
      c.Size = Block.getByteInterval.getInitializedSize - Block.getOffset ∧ 1 ≤ c.Size) := by
  have hlt : Block.getOffset < Block.getByteInterval.getInitializedSize := by
    by_cases hw : BaseAddr + Block.getByteInterval.getInitializedSize < U64
    · rw [Nat.mod_eq_of_lt hw] at h3
      omega
    · have hmod : (BaseAddr + Block.getByteInterval.getInitializedSize) % U64 =
          BaseAddr + Block.getByteInterval.getInitializedSize - U64 := by
        rw [Nat.mod_eq_sub_mod (not_lt.1 hw)]
        apply Nat.mod_eq_of_lt
        have hb : BaseAddr < U64 := by
          have := Nat.mod_lt (BaseAddr + Block.getByteInterval.getInitializedSize) U64_pos
          omega
        omega
      rw [hmod] at h3
      omega
  have hsize : (Block.getByteInterval.getInitializedSize + U64 - Block.getOffset) % U64 =
      Block.getByteInterval.getInitializedSize - Block.getOffset := by
    have : Block.getByteInterval.getInitializedSize + U64 - Block.getOffset =
        (Block.getByteInterval.getInitializedSize - Block.getOffset) + U64 := by omega
    rw [this, Nat.add_mod_right]
    exact Nat.mod_eq_of_lt (lt_of_le_of_lt (Nat.sub_le _ _) hsz)
  refine ⟨hlt, hsize, ⟨Facts, ⟨Block.getByteInterval.rawBytes, Block.getOffset⟩,
    Block.getByteInterval.getInitializedSize - Block.getOffset, Addr⟩, ?_, rfl, rfl, rfl, ?_⟩
  · simp only [CodeBlockLoader.loadBlock, h1, h2, if_pos h3, hsize]
  · simp only
    omega

/-- Witness for C18: the code block at offset 2 of the sample region is given length 2. -/
theorem code_block_length_no_wrap_witness :
    (CodeBlockLoader.loadBlock sampleLoader ⟨some 0x1002, sampleInterval, 2⟩
      (BinaryFacts.fresh _ _)).calls.map (fun c => (c.Addr, c.Bytes.offset, c.Size)) =
      [(0x1002, 2, 2)] ∧
    ((2 : Nat) < sampleInterval.getInitializedSize ∧
    (sampleInterval.getInitializedSize + U64 - 2) % U64 =
      sampleInterval.getInitializedSize - 2 ∧
    (∃ c, CodeBlockLoader.loadBlock sampleLoader ⟨some 0x1002, sampleInterval, 2⟩
        (BinaryFacts.fresh _ _) =
        ⟨[c], .done (sampleLoader.decode (BinaryFacts.fresh _ _) c.Bytes c.Size c.Addr)⟩ ∧
      c.Addr = 0x1002 ∧
      c.Bytes = ⟨sampleInterval.rawBytes, 2⟩ ∧
      c.Size = sampleInterval.getInitializedSize - 2 ∧ 1 ≤ c.Size)) :=
  ⟨by decide, code_block_length_no_wrap sampleLoader ⟨some 0x1002, sampleInterval, 2⟩
    (BinaryFacts.fresh _ _) 0x1002 0x1000 rfl rfl (by decide) (by decide) (by decide)⟩

end CursorClaims

/-! ## Lemmas on the loads over a module -/

section ModuleLemmas

variable {O : OperandTypes} {T : FactTypes}

theorem loadIntervals_append (L : InstructionLoader O T) (fuel : Nat)
    (As Bs : List ByteInterval) (F : BinaryFacts O T) :
    L.loadIntervals fuel (As ++ Bs) F =
      match (L.loadIntervals fuel As F).outcome with
      | .done F1 => ⟨(L.loadIntervals fuel As F).calls ++ (L.loadIntervals fuel Bs F1).calls,
          (L.loadIntervals fuel Bs F1).outcome⟩
      | .aborted => ⟨(L.loadIntervals fuel As F).calls, .aborted⟩
      | .outOfFuel => ⟨(L.loadIntervals fuel As F).calls, .outOfFuel⟩ := by
  induction As generalizing F with
  | nil => simp [InstructionLoader.loadIntervals]
  | cons A As ih =>
    simp only [List.cons_append, InstructionLoader.loadIntervals]
    cases h : (L.load fuel A F).outcome with
    | done F1 =>
      simp only []
      rw [show As.append Bs = As ++ Bs from rfl, ih F1]
      cases h' : (L.loadIntervals fuel As F1).outcome <;> simp [List.append_assoc]
    | aborted => simp
    | outOfFuel => simp

/-- The default load over a module is the sequence of the blind scans of the byte
intervals of its executable sections. -/
theorem loadSections_eq_loadIntervals (L : InstructionLoader O T) (fuel : Nat)
    (Secs : List Section) (F : BinaryFacts O T) :
    L.loadSections fuel Secs F = L.loadIntervals fuel (executableIntervals Secs) F := by
  induction Secs generalizing F with
  | nil => rfl
  | cons Sec Secs ih =>
    by_cases hx : Sec.Executable = true
    · simp only [InstructionLoader.loadSections, executableIntervals, if_pos hx,
        loadIntervals_append]
      cases h : (L.loadIntervals fuel Sec.byte_intervals F).outcome with
      | done F1 =>
        simp only []
        rw [ih F1]
      | aborted => rfl
      | outOfFuel => rfl
    · simp only [InstructionLoader.loadSections, executableIntervals, if_neg hx]
      exact ih F

/-- The cursors of a sequence of blind scans are an initial part of the concatenation
of the cursors of the single scans, and all of it when the sequence returns. -/
theorem loadIntervals_cursors (L : InstructionLoader O T) (fuel : Nat)
    (BIs : List ByteInterval) (F F0 : BinaryFacts O T) :
    ((L.loadIntervals fuel BIs F).calls.map DecodeCall.cursor <+:
      BIs.flatMap (fun BI => (L.load fuel BI F0).calls.map DecodeCall.cursor)) ∧
    (∀ F1, (L.loadIntervals fuel BIs F).outcome = .done F1 →
      (L.loadIntervals fuel BIs F).calls.map DecodeCall.cursor =
        BIs.flatMap (fun BI => (L.load fuel BI F0).calls.map DecodeCall.cursor)) := by
  induction BIs generalizing F with
  | nil =>
    simp [InstructionLoader.loadIntervals]
  | cons BI BIs ih =>
    have hc := (load_cursor_indep L fuel BI F F0).1
    simp only [InstructionLoader.loadIntervals, List.flatMap_cons]
    cases h : (L.load fuel BI F).outcome with
    | done F1 =>
      simp only [List.map_append, hc]
      obtain ⟨i1, i2⟩ := ih F1
      refine ⟨(List.prefix_append_right_inj _).2 i1, ?_⟩
      intro F2 hd
      rw [i2 F2 hd]
    | aborted =>
      simp only [hc]
      exact ⟨List.prefix_append _ _, fun F2 hd => Outcome.noConfusion hd⟩
    | outOfFuel =>
      simp only [hc]
      exact ⟨List.prefix_append _ _, fun F2 hd => Outcome.noConfusion hd⟩

theorem loadSections_of_none_executable (L : InstructionLoader O T) (fuel : Nat)
    (Secs : List Section) (F : BinaryFacts O T) (h : ∀ Sec ∈ Secs, Sec.Executable = false) :
    L.loadSections fuel Secs F = ⟨[], .done F⟩ := by
  induction Secs with
  | nil => rfl
  | cons Sec Secs ih =>
    have hx : ¬ Sec.Executable = true := by
      rw [h Sec (List.mem_cons_self _ _)]
      exact Bool.false_ne_true
    simp only [InstructionLoader.loadSections, if_neg hx]
    exact ih (fun Sec' hS => h Sec' (List.mem_cons_of_mem _ hS))

/-- In the scan of a region that can be scanned without leaving it, the `i`-th call is
at address `a + i * S`, inside the region. -/
theorem load_call_in_range (L : InstructionLoader O T) (hpos : 0 < L.InstructionSize)
    (fuel : Nat) (BI : ByteInterval) (F : BinaryFacts O T) (a : Nat)
    (ha : BI.getAddress = some a) (hend : a + BI.getInitializedSize ≤ U64)
    (hsz : BI.getInitializedSize < U64) (hdvd : L.InstructionSize ∣ BI.getInitializedSize)
    (i : Nat) (c : DecodeCall O T) (hc : (L.load fuel BI F).calls[i]? = some c) :
    c.Addr = a + i * L.InstructionSize ∧ i * L.InstructionSize < BI.getInitializedSize := by
  simp only [InstructionLoader.load, ha] at hc
  have hszpos : 0 < BI.getInitializedSize := by
    by_contra h0
    have h0' : BI.getInitializedSize = 0 := by omega
    rw [h0', loadLoop_size_zero] at hc
    simp at hc
  have hS : L.InstructionSize ≤ U64 := by
    have := Nat.le_of_dvd hszpos hdvd
    omega
  have haU : a < U64 := by omega
  have hi : i < (L.loadLoop fuel F ⟨BI.rawBytes, 0⟩ BI.getInitializedSize a).calls.length :=
    (List.getElem?_eq_some.1 hc).1
  obtain ⟨h1, -, -, -⟩ := loadLoop_call L hS fuel F _ _ a hsz haU i c hc
  have hmul : BI.getInitializedSize / L.InstructionSize * L.InstructionSize =
      BI.getInitializedSize := Nat.div_mul_cancel hdvd
  have hlt : i * L.InstructionSize < BI.getInitializedSize := by
    by_contra hge
    have hge' : BI.getInitializedSize / L.InstructionSize * L.InstructionSize ≤
        i * L.InstructionSize := by omega
    have hn : BI.getInitializedSize / L.InstructionSize ≤ i :=
      Nat.le_of_mul_le_mul_right hge' hpos
    obtain ⟨-, h2, -, h4⟩ := loadLoop_call L hS fuel F _ _ a hsz haU
      (BI.getInitializedSize / L.InstructionSize) _
      (List.getElem?_eq_getElem (lt_of_le_of_lt hn hi))
    rw [h2, sizeAfter_of_le _ _ _ hS hsz (le_of_eq hmul), hmul, Nat.sub_self] at h4
    exact absurd h4 (lt_irrefl 0)
  refine ⟨?_, hlt⟩
  rw [h1]
  unfold addrAfter
  exact Nat.mod_eq_of_lt (by omega)

/-- The scan of a region that can be scanned without leaving it passes pairwise different
addresses, all inside the region. -/
theorem load_addrs_in_range (L : InstructionLoader O T) (hpos : 0 < L.InstructionSize)
    (fuel : Nat) (BI : ByteInterval) (F : BinaryFacts O T) (a : Nat)
    (ha : BI.getAddress = some a) (hend : a + BI.getInitializedSize ≤ U64)
    (hsz : BI.getInitializedSize < U64) (hdvd : L.InstructionSize ∣ BI.getInitializedSize) :
    ((L.load fuel BI F).calls.map DecodeCall.Addr).Nodup ∧
      ∀ x ∈ (L.load fuel BI F).calls.map DecodeCall.Addr,
        a ≤ x ∧ x < a + BI.getInitializedSize := by
  constructor
  · rw [List.nodup_iff_getElem?_ne_getElem?]
    intro i j hij hj heq
    rw [List.length_map] at hj
    have hi : i < (L.load fuel BI F).calls.length := lt_trans hij hj
    rw [List.getElem?_map, List.getElem?_map, List.getElem?_eq_getElem hi,
      List.getElem?_eq_getElem hj] at heq
    simp only [Option.map_some', Option.some.injEq] at heq
    have ci := load_call_in_range L hpos fuel BI F a ha hend hsz hdvd i _
      (List.getElem?_eq_getElem hi)
    have cj := load_call_in_range L hpos fuel BI F a ha hend hsz hdvd j _
      (List.getElem?_eq_getElem hj)
    rw [ci.1, cj.1] at heq
    have : i * L.InstructionSize < j * L.InstructionSize :=
      Nat.mul_lt_mul_of_pos_right hij hpos
    omega
  · intro x hx
    obtain ⟨c, hcm, rfl⟩ := List.mem_map.1 hx
    obtain ⟨i, hi, hget⟩ := List.getElem_of_mem hcm
    have ci := load_call_in_range L hpos fuel BI F a ha hend hsz hdvd i c
      (by rw [List.getElem?_eq_getElem hi, hget])
    omega

/-- A sequence of blind scans over regions that can be scanned without leaving them and
that lie pairwise apart passes pairwise different addresses, each inside one of the
regions. -/
theorem loadIntervals_addrs_nodup (L : InstructionLoader O T) (hpos : 0 < L.InstructionSize)
    (fuel : Nat) (BIs : List ByteInterval) (F : BinaryFacts O T)
    (hscan : ∀ BI ∈ BIs, BI.Scannable L.InstructionSize)
    (hapart : BIs.Pairwise ByteInterval.Apart) :
    ((L.loadIntervals fuel BIs F).calls.map DecodeCall.Addr).Nodup ∧
      ∀ x ∈ (L.loadIntervals fuel BIs F).calls.map DecodeCall.Addr,
        ∃ BI ∈ BIs, ∃ a, BI.getAddress = some a ∧ a ≤ x ∧ x < a + BI.getInitializedSize := by
  induction BIs generalizing F with
  | nil => simp [InstructionLoader.loadIntervals]
  | cons BI BIs ih =>
    obtain ⟨a, ha, hend, hsz, hdvd⟩ := hscan BI (List.mem_cons_self _ _)
    obtain ⟨hnd, hrange⟩ := load_addrs_in_range L hpos fuel BI F a ha hend hsz hdvd
    have hscan' : ∀ BI' ∈ BIs, BI'.Scannable L.InstructionSize :=
      fun BI' h => hscan BI' (List.mem_cons_of_mem _ h)
    obtain ⟨hap1, hap2⟩ := List.pairwise_cons.1 hapart
    have hfirst : ∀ x ∈ (L.load fuel BI F).calls.map DecodeCall.Addr,
        ∃ BI' ∈ BI :: BIs, ∃ a', BI'.getAddress = some a' ∧ a' ≤ x ∧
          x < a' + BI'.getInitializedSize :=
      fun x hx => ⟨BI, List.mem_cons_self _ _, a, ha, hrange x hx⟩
    simp only [InstructionLoader.loadIntervals]
    cases h : (L.load fuel BI F).outcome with
    | done F1 =>
      obtain ⟨i1, i2⟩ := ih F1 hscan' hap2
      simp only [List.map_append]
      constructor
      · refine List.Nodup.append hnd i1 ?_
        intro x hx1 hx2
        obtain ⟨BI', hmem, b, hb, hb1, hb2⟩ := i2 x hx2
        have hr := hrange x hx1
        rcases hap1 BI' hmem a b ha hb with h' | h' <;> omega
      · intro x hx
        rcases List.mem_append.1 hx with hx | hx
        · exact hfirst x hx
        · obtain ⟨BI', hmem, rest⟩ := i2 x hx
          exact ⟨BI', List.mem_cons_of_mem _ hmem, rest⟩
    | aborted => exact ⟨hnd, hfirst⟩
    | outOfFuel => exact ⟨hnd, hfirst⟩

theorem loadBlock_of_not_asserted (L : InstructionLoader O T) (B : CodeBlock)
    (F : BinaryFacts O T) (h : ¬ B.Asserted) :
    CodeBlockLoader.loadBlock L B F = ⟨[], .aborted⟩ := by
  cases h1 : B.getAddress with
  | none => simp only [CodeBlockLoader.loadBlock, h1]
  | some Addr =>
    cases h2 : B.getByteInterval.getAddress with
    | none => simp only [CodeBlockLoader.loadBlock, h1, h2]
    | some BaseAddr =>
      have h3 : ¬ Addr < (BaseAddr + B.getByteInterval.getInitializedSize) % U64 :=
        fun h3 => h ⟨Addr, BaseAddr, h1, h2, h3⟩
      simp only [CodeBlockLoader.loadBlock, h1, h2, if_neg h3]

/-- The code-block load ends on a failed `assert` as soon as one block does not pass the
three `assert`s, and then leaves no fact set. -/
theorem loadBlocks_aborted (L : InstructionLoader O T) (Bs : List CodeBlock)
    (F : BinaryFacts O T) (h : ∃ B ∈ Bs, ¬ B.Asserted) :
    (CodeBlockLoader.loadBlocks L Bs F).outcome = .aborted := by
  induction Bs generalizing F with
  | nil =>
    obtain ⟨B, hB, -⟩ := h
    exact absurd hB (List.not_mem_nil B)
  | cons B Bs ih =>
    by_cases hB : B.Asserted
    · obtain ⟨c, hc, -⟩ := loadBlock_of_asserted L B F hB
      simp only [CodeBlockLoader.loadBlocks, hc]
      apply ih
      obtain ⟨B', hB', hn⟩ := h
      rcases List.mem_cons.1 hB' with rfl | hB'
      · exact absurd hB hn
      · exact ⟨B', hB', hn⟩
    · simp only [CodeBlockLoader.loadBlocks, loadBlock_of_not_asserted L B F hB]

/-- The code-block load returns, after one `decode` call per block, when every block
passes the three `assert`s. -/
theorem loadBlocks_done (L : InstructionLoader O T) (Bs : List CodeBlock)
    (F : BinaryFacts O T) (h : ∀ B ∈ Bs, B.Asserted) :
    (∃ F1, (CodeBlockLoader.loadBlocks L Bs F).outcome = .done F1) ∧
      (CodeBlockLoader.loadBlocks L Bs F).calls.length = Bs.length := by
  induction Bs generalizing F with
  | nil => exact ⟨⟨F, rfl⟩, rfl⟩
  | cons B Bs ih =>
    obtain ⟨c, hc, -⟩ := loadBlock_of_asserted L B F (h B (List.mem_cons_self _ _))
    obtain ⟨i1, i2⟩ := ih (L.decode F c.Bytes c.Size c.Addr)
      (fun B' hB' => h B' (List.mem_cons_of_mem _ hB'))
    simp only [CodeBlockLoader.loadBlocks, hc, List.singleton_append, List.length_cons]
    exact ⟨i1, by rw [i2]⟩

/-- The addresses of the `decode` calls of the code-block load are the addresses of an
initial part of the blocks. -/
theorem loadBlocks_addrs (L : InstructionLoader O T) (Bs : List CodeBlock)
    (F : BinaryFacts O T) :
    (CodeBlockLoader.loadBlocks L Bs F).calls.map (fun c => some c.Addr) <+:
      Bs.map CodeBlock.getAddress := by
  induction Bs generalizing F with
  | nil => simp [CodeBlockLoader.loadBlocks]
  | cons B Bs ih =>
    by_cases hB : B.Asserted
    · obtain ⟨c, hc, -, h1, -⟩ := loadBlock_of_asserted L B F hB
      simp only [CodeBlockLoader.loadBlocks, hc, List.singleton_append, List.map_cons, h1]
      exact (List.prefix_cons_inj _).2 (ih _)
    · simp only [CodeBlockLoader.loadBlocks, loadBlock_of_not_asserted L B F hB, List.map_nil]
      exact List.nil_prefix

theorem foldl_push_back (l init : List Nat) :
    l.foldl (fun Entries EA => Entries ++ [EA]) init = init ++ l := by
  induction l generalizing init with
  | nil => simp
  | cons x l ih => simp [ih]

end ModuleLemmas

/-! ## The loads over a module: claims C11, C12, C13, C15 -/

section ModuleClaims

variable {O : OperandTypes} {T : FactTypes}

/-- C11, as stated, fails under both policies: with two code blocks at the same address
the code-block scan passes `0x1000` to `decode` twice, and with two executable sections
holding a byte interval at the same address the blind scan passes every address of the
region twice. -/
theorem same_address_decoded_twice :
    (CodeBlockLoader.load sampleLoader
        ⟨[], [⟨some 0x1000, sampleInterval, 0⟩, ⟨some 0x1000, sampleInterval, 0⟩], none⟩
        (BinaryFacts.fresh _ _)).calls.map DecodeCall.Addr = [0x1000, 0x1000] ∧
    ¬ ((CodeBlockLoader.load sampleLoader
        ⟨[], [⟨some 0x1000, sampleInterval, 0⟩, ⟨some 0x1000, sampleInterval, 0⟩], none⟩
        (BinaryFacts.fresh _ _)).calls.map DecodeCall.Addr).Nodup ∧
    (sampleLoader.loadModule 4
        ⟨[⟨true, [sampleInterval]⟩, ⟨true, [sampleInterval]⟩], [], none⟩
        (BinaryFacts.fresh _ _)).calls.map DecodeCall.Addr =
      [0x1000, 0x1001, 0x1002, 0x1003, 0x1000, 0x1001, 0x1002, 0x1003] ∧
    ¬ ((sampleLoader.loadModule 4
        ⟨[⟨true, [sampleInterval]⟩, ⟨true, [sampleInterval]⟩], [], none⟩
        (BinaryFacts.fresh _ _)).calls.map DecodeCall.Addr).Nodup := by
  decide

/-- C11, amended: within one invocation of `load`, no address is passed to `decode` more
than once (a) during the blind scan of one byte interval that returns; (b) during the
default blind scan of a module whose executable byte intervals lie inside the address
space, have lengths the positive stride divides, and occupy pairwise disjoint address
ranges; (c) during the code-block scan of a module whose code blocks have pairwise
different addresses. -/
theorem no_address_decoded_twice (L : InstructionLoader O T) (fuel : Nat) (M : Module)
    (F : BinaryFacts O T) :
    (∀ (BI : ByteInterval) (base : Nat) (F1 : BinaryFacts O T), L.InstructionSize < 256 →
      BI.getAddress = some base → base < U64 → BI.getInitializedSize < U64 →
      (L.load fuel BI F).outcome = .done F1 →
      ((L.load fuel BI F).calls.map DecodeCall.Addr).Nodup) ∧
    (0 < L.InstructionSize →
      (∀ BI ∈ executableIntervals M.sections, BI.Scannable L.InstructionSize) →
      (executableIntervals M.sections).Pairwise ByteInterval.Apart →
      ((L.loadModule fuel M F).calls.map DecodeCall.Addr).Nodup) ∧
    ((M.code_blocks.map CodeBlock.getAddress).Nodup →
      ((CodeBlockLoader.load L M F).calls.map DecodeCall.Addr).Nodup) := by
  refine ⟨?_, ?_, ?_⟩
  · intro BI base F1 hS hbase hb hsz hd
    have hS' : L.InstructionSize ≤ U64 := by
      rw [U64_eq]
      omega
    simp only [InstructionLoader.load, hbase] at hd ⊢
    exact loadLoop_addrs_nodup L hS' fuel F _ _ base hsz hb F1 hd
  · intro hpos hscan hapart
    unfold InstructionLoader.loadModule
    rw [loadSections_eq_loadIntervals]
    exact (loadIntervals_addrs_nodup L hpos fuel _ F hscan hapart).1
  · intro hnd
    have hpre := loadBlocks_addrs L M.code_blocks F
    have h1 : ((CodeBlockLoader.loadBlocks L M.code_blocks F).calls.map
        (fun c => some c.Addr)).Nodup := hnd.sublist hpre.sublist
    have h2 : (CodeBlockLoader.loadBlocks L M.code_blocks F).calls.map (fun c => some c.Addr) =
        ((CodeBlockLoader.loadBlocks L M.code_blocks F).calls.map DecodeCall.Addr).map some := by
      rw [List.map_map]
      rfl
    rw [h2] at h1
    exact List.Nodup.of_map some h1

/-- Witness for C11 amended: the sample module, with one executable region and two code
blocks at different addresses. -/
theorem no_address_decoded_twice_witness :
    (sampleLoader.loadModule 4 sampleModule (BinaryFacts.fresh _ _)).calls.map DecodeCall.Addr =
      [0x1000, 0x1001, 0x1002, 0x1003] ∧
    ((sampleLoader.loadModule 4 sampleModule (BinaryFacts.fresh _ _)).calls.map
      DecodeCall.Addr).Nodup ∧
    ((CodeBlockLoader.load sampleLoader sampleModule (BinaryFacts.fresh _ _)).calls.map
      DecodeCall.Addr).Nodup :=
  have h := no_address_decoded_twice sampleLoader 4 sampleModule (BinaryFacts.fresh _ _)
  ⟨by decide,
    h.2.1 (by decide)
      (by
        intro BI hBI
        simp only [sampleModule, executableIntervals, if_true, List.append_nil,
          List.mem_singleton] at hBI
        subst hBI
        exact ⟨0x1000, rfl, by decide, by decide, by decide⟩)
      (by simp [sampleModule, executableIntervals]),
    h.2.2 (by decide)⟩

/-- C12, as stated, fails: a code block at `0x1004`, offset 4 of the sample region, has
an address and so has its byte interval, yet the third `assert` (block address below
interval address plus initialized size) fails: `load` does not run to the end and
`insert` is not called. -/
theorem uninitialized_code_block_aborts :
    (⟨some 0x1004, sampleInterval, 4⟩ : CodeBlock).getAddress = some 0x1004 ∧
    (⟨some 0x1004, sampleInterval, 4⟩ : CodeBlock).getByteInterval.getAddress = some 0x1000 ∧
    (InstructionLoader.invoke
        (CodeBlockLoader.load sampleLoader ⟨[], [⟨some 0x1004, sampleInterval, 4⟩], none⟩)
        sampleInsert []).ended = .aborted ∧
    (InstructionLoader.invoke
        (CodeBlockLoader.load sampleLoader ⟨[], [⟨some 0x1004, sampleInterval, 4⟩], none⟩)
        sampleInsert []).inserts.length = 0 ∧
    (InstructionLoader.invoke
        (CodeBlockLoader.load sampleLoader ⟨[], [⟨some 0x1004, sampleInterval, 4⟩], none⟩)
        sampleInsert []).Program = [] := by
  decide

/-- C12, amended: if the code-block scan meets a code block that fails one of the three
`assert`s (no block address, no byte-interval address, or a block address not below
interval address plus initialized size), `operator()` ends on the failed `assert`,
`insert` is never called and the sink is as it was; otherwise `load` returns after one
`decode` call per block and `insert` is called exactly once, with the fact set `load`
left. -/
theorem code_block_invocation_all_or_nothing {P : Type} (L : InstructionLoader O T)
    (insert : BinaryFacts O T → P → P) (M : Module) (Program : P) :
    ((∃ B ∈ M.code_blocks, ¬ B.Asserted) →
      (InstructionLoader.invoke (CodeBlockLoader.load L M) insert Program).ended = .aborted ∧
      (InstructionLoader.invoke (CodeBlockLoader.load L M) insert Program).inserts = [] ∧
      (InstructionLoader.invoke (CodeBlockLoader.load L M) insert Program).Program = Program) ∧
    ((∀ B ∈ M.code_blocks, B.Asserted) →
      ∃ F1, (CodeBlockLoader.load L M (BinaryFacts.fresh O T)).outcome = .done F1 ∧
        (CodeBlockLoader.load L M (BinaryFacts.fresh O T)).calls.length =
          M.code_blocks.length ∧
        (InstructionLoader.invoke (CodeBlockLoader.load L M) insert Program).ended
          = .returned ∧
        (InstructionLoader.invoke (CodeBlockLoader.load L M) insert Program).inserts = [F1] ∧
        (InstructionLoader.invoke (CodeBlockLoader.load L M) insert Program).Program =
          insert F1 Program) := by
  constructor
  · intro h
    have ha := loadBlocks_aborted L M.code_blocks (BinaryFacts.fresh O T) h
    simp only [InstructionLoader.invoke, CodeBlockLoader.load, ha]
    exact ⟨trivial, trivial, trivial⟩
  · intro h
    obtain ⟨⟨F1, hd⟩, hlen⟩ := loadBlocks_done L M.code_blocks (BinaryFacts.fresh O T) h
    refine ⟨F1, hd, hlen, ?_⟩
    simp only [InstructionLoader.invoke, CodeBlockLoader.load, hd]
    exact ⟨trivial, trivial, trivial⟩

/-- Witness for C12 amended: on the sample module `insert` is called once, with the facts
of the two code blocks (decode fails at `0x1002`). -/
theorem code_block_invocation_all_or_nothing_witness :
    (InstructionLoader.invoke (CodeBlockLoader.load sampleLoader sampleModule)
      sampleInsert []).Program = [("invalid_instruction", [0x1002])] ∧
    ∃ F1, (CodeBlockLoader.load sampleLoader sampleModule (BinaryFacts.fresh _ _)).outcome
        = .done F1 ∧
      (CodeBlockLoader.load sampleLoader sampleModule (BinaryFacts.fresh _ _)).calls.length =
        sampleModule.code_blocks.length ∧
      (InstructionLoader.invoke (CodeBlockLoader.load sampleLoader sampleModule)
        sampleInsert []).ended = .returned ∧
      (InstructionLoader.invoke (CodeBlockLoader.load sampleLoader sampleModule)
        sampleInsert []).inserts = [F1] ∧
      (InstructionLoader.invoke (CodeBlockLoader.load sampleLoader sampleModule)
        sampleInsert []).Program = sampleInsert F1 [] :=
  ⟨by decide, (code_block_invocation_all_or_nothing sampleLoader sampleInsert sampleModule []).2
    (by
      intro B hB
      simp only [sampleModule, List.mem_cons, List.mem_singleton, List.not_mem_nil,
        or_false] at hB
      rcases hB with rfl | rfl
      · exact ⟨0x1000, 0x1000, rfl, rfl, by decide⟩
      · exact ⟨0x1002, 0x1000, rfl, rfl, by decide⟩)⟩

/-- C13 (entry points): `RawEntryLoader` makes one call of `insert` on the sink, for the
relation named `entry_point`, whose tuples are the module's raw entry addresses, one per
entry and in the order of the table; without the table the relation is empty. It reads
nothing of the module but that table, so no decoded fact: two modules with the same
table give the same result. For the table `[0x2000, 0x2010]` the sample sink receives
`entry_point(0x2000)`, `entry_point(0x2010)`. -/
theorem raw_entry_loader_inserts_entry_points {P : Type}
    (insert : String → List Nat → P → P) (M : Module) (Program : P) :
    (∀ Entries, M.RawEntries = some Entries →
      RawEntryLoader insert M Program = insert "entry_point" Entries Program) ∧
    (M.RawEntries = none →
      RawEntryLoader insert M Program = insert "entry_point" [] Program) ∧
    (∀ M1 : Module, M1.RawEntries = M.RawEntries →
      RawEntryLoader insert M1 Program = RawEntryLoader insert M Program) ∧
    RawEntryLoader RelationLog.insert ⟨[], [], some [0x2000, 0x2010]⟩ [] =
      [("entry_point", [0x2000, 0x2010])] ∧
    RawEntryLoader RelationLog.insert ⟨[], [], none⟩ [] = [("entry_point", [])] := by
  refine ⟨?_, ?_, ?_, by decide, by decide⟩
  · intro Entries h
    simp only [RawEntryLoader, h, foldl_push_back, List.nil_append]
  · intro h
    simp only [RawEntryLoader, h]
  · intro M1 h
    simp only [RawEntryLoader, h]

/-- C15 (the default load scans the executable sections): the default
`load(Module, Facts)` is the sequence, in section order and then byte-interval order, of
the blind scans of the byte intervals of the sections flagged executable; the addresses,
data pointers and lengths of its `decode` calls are an initial part of the concatenation
of those of the single scans, and the whole concatenation when the load returns; and a
module with no executable section causes no `decode` call and leaves the fact set as it
was, so empty when it was empty. -/
theorem default_load_scans_executable_sections (L : InstructionLoader O T) (fuel : Nat)
    (M : Module) (F : BinaryFacts O T) :
    L.loadModule fuel M F = L.loadIntervals fuel (executableIntervals M.sections) F ∧
    ((L.loadModule fuel M F).calls.map DecodeCall.cursor <+:
      (executableIntervals M.sections).flatMap
        (fun BI => (L.load fuel BI F).calls.map DecodeCall.cursor)) ∧
    (∀ F1, (L.loadModule fuel M F).outcome = .done F1 →
      (L.loadModule fuel M F).calls.map DecodeCall.cursor =
        (executableIntervals M.sections).flatMap
          (fun BI => (L.load fuel BI F).calls.map DecodeCall.cursor)) ∧
    ((∀ Sec ∈ M.sections, Sec.Executable = false) →
      L.loadModule fuel M F = ⟨[], .done F⟩) := by
  have h1 : L.loadModule fuel M F = L.loadIntervals fuel (executableIntervals M.sections) F :=
    loadSections_eq_loadIntervals L fuel M.sections F
  obtain ⟨h2, h3⟩ := loadIntervals_cursors L fuel (executableIntervals M.sections) F F
  refine ⟨h1, ?_, ?_, ?_⟩
  · rw [h1]
    exact h2
  · rw [h1]
    exact h3
  · intro h
    exact loadSections_of_none_executable L fuel M.sections F h

/-- Witness for C15: a module with an executable section holding the sample region and a
section that is not executable holding the same bytes: decode is attempted in the first
only; and a module with only the second section causes no decode call. -/
theorem default_load_scans_executable_sections_witness :
    (sampleLoader.loadModule 4
        ⟨[⟨true, [sampleInterval]⟩, ⟨false, [sampleInterval]⟩], [], none⟩
        (BinaryFacts.fresh _ _)).calls.map DecodeCall.Addr = [0x1000, 0x1001, 0x1002, 0x1003] ∧
    sampleLoader.loadModule 4 ⟨[⟨false, [sampleInterval]⟩], [], none⟩ (BinaryFacts.fresh _ _) =
      ⟨[], .done (BinaryFacts.fresh _ _)⟩ :=
  ⟨by decide, (default_load_scans_executable_sections sampleLoader 4
      ⟨[⟨false, [sampleInterval]⟩], [], none⟩ (BinaryFacts.fresh _ _)).2.2.2 (by decide)⟩

end ModuleClaims

end Ddisasm
